import Mathlib

/-!
# ofxIndexRange: index ranges and self-normalising lists of index ranges

A shallow embedding of `ofx::IndexRange` (IndexRange.h / IndexRange.cpp) and
`ofx::IndexRangeList` (IndexRangeList.h / IndexRangeList.cpp).

`std::size_t` is modelled as a natural number below `MODULUS = 2^64`; every
arithmetic operation of the source is written with its wraparound made
explicit (`uadd`, `usub`).  A range whose two fields are below `MODULUS` is
well formed (`IndexRange.WF`): these are exactly the values the C++ type can hold.
-/

namespace ofx

/-- The number of values of `std::size_t` (a 64-bit unsigned integer): `2^64`. -/
def MODULUS : Nat := 18446744073709551616

/-- Unsigned addition of two `std::size_t` values (wraps modulo `2^64`). -/
def uadd (a b : Nat) : Nat := (a + b) % MODULUS

/-- Unsigned subtraction of two `std::size_t` values (wraps modulo `2^64`). -/
def usub (a b : Nat) : Nat := (a + MODULUS - b) % MODULUS

/-- The class `IndexRange`: the two public data members `location` and `size`. -/
structure IndexRange where
  location : Nat := 0
  size : Nat := 0
deriving DecidableEq, Repr

namespace IndexRange

/-- `IndexRange::MAX`, i.e. `std::numeric_limits<std::size_t>::max()`. -/
def MAX : Nat := 18446744073709551615

/-- `IndexRange::LOWEST`, i.e. `std::numeric_limits<std::size_t>::lowest()`. -/
def LOWEST : Nat := 0

/-- `IndexRange::MAXIMUM_RANGE`. -/
def MAXIMUM_RANGE : IndexRange := ⟨0, MAX⟩

/-- Both fields are values of `std::size_t`. -/
def WF (r : IndexRange) : Prop := r.location < MODULUS ∧ r.size < MODULUS

instance (r : IndexRange) : Decidable r.WF := by unfold WF; infer_instance

/-- `IndexRange::getMin`. -/
def getMin (r : IndexRange) : Nat := r.location

/-- `IndexRange::getMax`: `location + size` in `std::size_t` arithmetic. -/
def getMax (r : IndexRange) : Nat := uadd r.location r.size

/-- `IndexRange::setMin`: the receiver after the call. -/
def setMin (r : IndexRange) (value : Nat) : IndexRange :=
  let max := uadd r.location r.size
  if value > max then
    { location := value, size := 0 }
  else
    { location := value, size := usub max value }

/-- `IndexRange::setMax`: the receiver after the call. -/
def setMax (r : IndexRange) (value : Nat) : IndexRange :=
  if value < r.location then
    { location := value, size := 0 }
  else
    { location := r.location, size := usub value r.location }

/-- `IndexRange::overflows`. -/
def overflows (r : IndexRange) : Bool := decide (uadd r.location r.size < r.location)

/-- `IndexRange::empty`. -/
def empty (r : IndexRange) : Bool := decide (0 = r.size)

/-- `IndexRange::contains(std::size_t)`. -/
def contains (r : IndexRange) (i : Nat) : Bool :=
  decide (i ≥ r.location) && decide (usub i r.location < r.size)

/-- `IndexRange::contains(const IndexRange&)`. -/
def containsRange (r other : IndexRange) : Bool :=
  r.contains other.location && r.contains (usub (uadd other.location other.size) 1)

/-- `IndexRange::isHighAdjacentTo`. -/
def isHighAdjacentTo (r other : IndexRange) : Bool :=
  decide (uadd other.location other.size = r.location)

/-- `IndexRange::isLowAdjacentTo`. -/
def isLowAdjacentTo (r other : IndexRange) : Bool :=
  decide (other.location = uadd r.location r.size)

/-- `IndexRange::isAdjacentTo`. -/
def isAdjacentTo (r other : IndexRange) : Bool :=
  decide (uadd other.location other.size = r.location)
    || decide (other.location = uadd r.location r.size)

/-- `IndexRange::intersectionWith`. -/
def intersectionWith (r other : IndexRange) : IndexRange :=
  let thisMax := uadd r.location r.size
  let otherMax := uadd other.location other.size
  let minMax := min thisMax otherMax
  if other.location ≤ r.location ∧ r.location < otherMax then
    { location := r.location, size := usub minMax r.location }
  else if r.location ≤ other.location ∧ other.location < thisMax then
    { location := other.location, size := usub minMax other.location }
  else
    { location := 0, size := 0 }

/-- `IndexRange::intersects`. -/
def intersects (r other : IndexRange) : Bool :=
  decide ((r.intersectionWith other).size ≠ 0)

/-- `IndexRange::unionWith`. -/
def unionWith (r other : IndexRange) : IndexRange :=
  let location := min r.location other.location
  { location := location, size := usub (max r.getMax other.getMax) location }

/-- `IndexRange::mergeWith`. -/
def mergeWith (r other : IndexRange) : IndexRange :=
  if r.intersects other || r.isAdjacentTo other then
    r.unionWith other
  else
    { location := 0, size := 0 }

/-- `IndexRange::clearOverflow`: the returned remainder, paired with the
receiver after the call. -/
def clearOverflow (r : IndexRange) : IndexRange × IndexRange :=
  let max := uadd r.location r.size
  if max < r.location then
    let over := uadd (uadd (uadd MAX max) 1) 1
    ({ location := 0, size := over }, { location := r.location, size := usub r.size over })
  else
    ({ location := 0, size := 0 }, r)

/-- `IndexRange::operator==`. -/
def eq (r rhs : IndexRange) : Bool :=
  decide (r.location = rhs.location) && decide (r.size = rhs.size)

/-- `IndexRange::operator<`. -/
def lt (r rhs : IndexRange) : Bool :=
  if r.location < rhs.location then true
  else if rhs.location < r.location then false
  else if uadd r.location r.size < uadd rhs.location rhs.size then true
  else false

/-- `IndexRange::operator<=`. -/
def le (r rhs : IndexRange) : Bool := !(rhs.lt r)

/-- `IndexRange::fromInterval`. -/
def fromInterval (lower upper : Nat) : IndexRange :=
  if upper < lower then
    { location := upper, size := uadd (usub lower upper) 1 }
  else
    { location := lower, size := uadd (usub upper lower) 1 }

/-- `IndexRange::fromExclusiveInterval`. -/
def fromExclusiveInterval (min max : Nat) : IndexRange :=
  if max < min then
    { location := max, size := usub min max }
  else
    { location := min, size := usub max min }

end IndexRange

/-- `IndexRangeList::validate`: overflow-clear a copy and return it. -/
def validate (range : IndexRange) : IndexRange := range.clearOverflow.2

/-- The class `IndexRangeList`: the stored ranges and the `_sorted` flag
(which the header initialises to `false`). -/
structure IndexRangeList where
  _ranges : List IndexRange := []
  _sorted : Bool := false
deriving DecidableEq, Repr

/-- Insertion of one range into a list ordered by `operator<`. -/
def sortInsert (a : IndexRange) : List IndexRange → List IndexRange
  | [] => [a]
  | b :: l => if b.lt a then b :: sortInsert a l else a :: b :: l

/-- The call `std::sort(_ranges.begin(), _ranges.end())`, which orders by
`operator<`.  On well-formed ranges `operator<` is a strict total order, so the
sorted arrangement is unique and any sorting algorithm yields it. -/
def sortRanges : List IndexRange → List IndexRange
  | [] => []
  | a :: l => sortInsert a (sortRanges l)

/-- The merging `while` loop of `IndexRangeList::_sort`: `last` is `*(iter - 1)`
and the list argument is what remains from `iter` on. -/
def mergeLoop : IndexRange → List IndexRange → List IndexRange
  | last, [] => [last]
  | last, curr :: rest =>
    let merged := last.mergeWith curr
    if merged.size ≠ 0 then
      mergeLoop merged rest
    else
      last :: mergeLoop curr rest

namespace IndexRangeList

/-- `IndexRangeList::_sort`: the list after the call. -/
def _sort (l : IndexRangeList) : IndexRangeList :=
  if !l._sorted then
    if l._ranges.length > 1 then
      match sortRanges l._ranges with
      | [] => { _ranges := [], _sorted := true }
      | first :: rest => { _ranges := mergeLoop first rest, _sorted := true }
    else
      { _ranges := l._ranges, _sorted := true }
  else
    l

/-- `IndexRangeList::add`. -/
def add (l : IndexRangeList) (_range : IndexRange) : IndexRangeList :=
  let range := validate _range
  if range.empty then
    l
  else
    { _ranges := l._ranges ++ [range], _sorted := false }

/-- The constructor `IndexRangeList(const std::vector<IndexRange>&)`. -/
def fromVector (ranges : List IndexRange) : IndexRangeList :=
  ranges.foldl add {}

/-- The `while` loop of `IndexRangeList::remove`, from `iter` on; the Boolean
is `foundIntersection`.  The entries before `iter` are not touched again.  After a
split the iterator points at the inserted high part, which the next iteration
examines, so the loop is not structurally recursive: each iteration spends one
unit of fuel, and `none` means the fuel ran out. -/
def removeLoop (range : IndexRange) : Nat → Bool → List IndexRange → Option (List IndexRange)
  | 0, _, _ => none
  | _ + 1, _, [] => some []
  | fuel + 1, foundIntersection, it :: rest =>
    let intersection := range.intersectionWith it
    if intersection.size ≠ 0 then
      if intersection.getMin = it.getMin then
        if intersection.getMax < it.getMax then
          (removeLoop range fuel true rest).map (fun t => it.setMin intersection.getMax :: t)
        else
          removeLoop range fuel true rest
      else if intersection.getMax = it.getMax then
        (removeLoop range fuel true rest).map (fun t => it.setMax intersection.getMin :: t)
      else
        let hi := it.setMin intersection.getMax
        removeLoop range fuel true (hi :: it.setMax intersection.getMin :: rest)
    else if foundIntersection then
      some (it :: rest)
    else
      (removeLoop range fuel false rest).map (fun t => it :: t)

/-- `IndexRangeList::remove`.  The loop is given `2 * n + 2` iterations for a
list of `n` stored ranges; the result is `none` should that not suffice. -/
def remove (l : IndexRangeList) (_range : IndexRange) : Option IndexRangeList :=
  let range := validate _range
  if range.empty then
    some l
  else
    let s := l._sort
    (removeLoop range (2 * s._ranges.length + 2) false s._ranges).map
      (fun t => { _ranges := t, _sorted := false })

/-- The `while` loop of `IndexRangeList::insert`. -/
def insertLoop (range : IndexRange) : List IndexRange → List IndexRange
  | [] => []
  | curr :: rest =>
    let shifted : IndexRange × Bool :=
      if curr.contains range.location then
        ({ location := curr.location, size := uadd curr.size range.size }, false)
      else if curr.location > range.location then
        if uadd curr.location range.size < curr.location then
          (curr, true)
        else
          ({ location := uadd curr.location range.size, size := curr.size }, false)
      else
        (curr, false)
    let cleared := shifted.1.clearOverflow.2
    if shifted.2 then
      insertLoop range rest
    else
      cleared :: insertLoop range rest

/-- `IndexRangeList::insert`. -/
def insert (l : IndexRangeList) (_range : IndexRange) : IndexRangeList :=
  let range := validate _range
  if range.empty then
    l
  else
    let s := l._sort
    { _ranges := insertLoop range s._ranges, _sorted := false }

/-- The body of the `while` loop of `IndexRangeList::erase` up to the test of
the size: what `*iter` has become. -/
def eraseStep (range it : IndexRange) : IndexRange :=
  if range.getMin < it.getMax then
    if range.getMax ≥ it.getMax then
      it.setMax range.getMin
    else if range.getMin ≥ it.getMin then
      { location := it.location, size := usub it.size (min it.size range.size) }
    else if range.getMax ≤ it.getMin then
      { location := usub it.location (min it.location range.size), size := it.size }
    else if range.getMax < it.getMax then
      let it1 := it.setMin range.getMax
      { location := usub it1.location (min it1.location range.size), size := it1.size }
    else
      it
  else
    it

/-- The `while` loop of `IndexRangeList::erase`. -/
def eraseLoop (range : IndexRange) : List IndexRange → List IndexRange
  | [] => []
  | it :: rest =>
    let it1 := eraseStep range it
    if 0 = it1.size then
      eraseLoop range rest
    else
      it1 :: eraseLoop range rest

/-- `IndexRangeList::erase`.  The source neither sorts first nor touches
`_sorted`. -/
def erase (l : IndexRangeList) (_range : IndexRange) : IndexRangeList :=
  let range := validate _range
  if range.empty then
    l
  else
    { _ranges := eraseLoop range l._ranges, _sorted := l._sorted }

/-- `IndexRangeList::clear`. -/
def clear (_l : IndexRangeList) : IndexRangeList :=
  { _ranges := [], _sorted := true }

/-- `IndexRangeList::size`: the returned count (the list afterwards is `_sort`). -/
def size (l : IndexRangeList) : Nat := l._sort._ranges.length

/-- `IndexRangeList::empty`: the returned flag (the list afterwards is `_sort`). -/
def empty (l : IndexRangeList) : Bool := l._sort._ranges.isEmpty

/-- `IndexRangeList::ranges`: the returned vector (the list afterwards is `_sort`). -/
def ranges (l : IndexRangeList) : List IndexRange := l._sort._ranges

end IndexRangeList

/-- One call on an `IndexRangeList`: a mutator with its argument, or one of the
observers `size()`, `empty()`, `ranges()`. -/
inductive Call where
  | add (r : IndexRange)
  | remove (r : IndexRange)
  | insert (r : IndexRange)
  | erase (r : IndexRange)
  | clear
  | size
  | empty
  | ranges
deriving DecidableEq, Repr

namespace Call

/-- The list after one call.  The observers are `const` but run `_sort` on the
`mutable` members. -/
def apply (l : IndexRangeList) : Call → Option IndexRangeList
  | add r => some (l.add r)
  | remove r => l.remove r
  | insert r => some (l.insert r)
  | erase r => some (l.erase r)
  | clear => some l.clear
  | size => some l._sort
  | empty => some l._sort
  | ranges => some l._sort

/-- The list after a sequence of calls, first call first. -/
def run : IndexRangeList → List Call → Option IndexRangeList
  | l, [] => some l
  | l, c :: cs => (apply l c).bind (fun l1 => run l1 cs)

/-- The argument of a call, if it has one, is a well-formed range. -/
def WF : Call → Prop
  | add r => r.WF
  | remove r => r.WF
  | insert r => r.WF
  | erase r => r.WF
  | _ => True

instance (c : Call) : Decidable c.WF := by cases c <;> unfold WF <;> infer_instance

/-- The call is `add` or one of the observers. -/
def isAddOrObserver : Call → Bool
  | add _ => true
  | size => true
  | empty => true
  | ranges => true
  | _ => false

end Call

/-- Some entry of the list contains the index. -/
def covers (l : List IndexRange) (p : Nat) : Prop := ∃ e ∈ l, e.contains p = true

namespace IndexRange

/-- Non-empty and not overflowing, in exact arithmetic. -/
def Valid (r : IndexRange) : Prop := 0 < r.size ∧ r.location + r.size < MODULUS

end IndexRange

/-- Normal form of a list of ranges: every entry is non-empty and does not
overflow, and each entry ends strictly below the start of the next one. -/
def NormalForm (l : List IndexRange) : Prop :=
  (∀ e ∈ l, e.Valid) ∧ l.Chain' (fun e f => e.location + e.size < f.location)

/-- The representation invariant of `IndexRangeList`: what is stored is
non-empty and does not overflow, and a list flagged as sorted is in normal form. -/
def IndexRangeList.Inv (l : IndexRangeList) : Prop :=
  (∀ e ∈ l._ranges, e.Valid) ∧ (l._sorted = true → NormalForm l._ranges)

/-- The parts of the entry `e` that lie outside the window `w`, the low part
first.  This is a mathematical description used to state what `remove` computes,
not a function of the source. -/
def differencePieces (w e : IndexRange) : List IndexRange :=
  (if e.location < w.location then
    [{ location := e.location, size := min (e.location + e.size) w.location - e.location }]
  else []) ++
  (if w.location + w.size < e.location + e.size then
    [{ location := max e.location (w.location + w.size),
       size := e.location + e.size - max e.location (w.location + w.size) }]
  else [])

/-- What `insert(r)` makes of the entry `e` when nothing overflows: `e` grows by
`r.size` if it contains `r.location`, moves up by `r.size` if it starts above
`r.location`, and is kept otherwise.  A mathematical description used to state
what `insert` computes, not a function of the source. -/
def insertImage (r e : IndexRange) : IndexRange :=
  if e.contains r.location then { location := e.location, size := e.size + r.size }
  else if e.location > r.location then { location := e.location + r.size, size := e.size }
  else e

/-! ## Checks against the repository's unit tests (tests/intervals/src/main.cpp) -/

example : (IndexRangeList.fromVector [IndexRange.fromInterval 1 1, IndexRange.fromInterval 1 2,
    IndexRange.fromInterval 4 10, IndexRange.fromInterval 5 6,
    IndexRange.fromInterval 11 11]).ranges =
    [IndexRange.fromInterval 1 2, IndexRange.fromInterval 4 11] := by decide

example : (IndexRange.mk 1 IndexRange.MAX).clearOverflow =
    (⟨0, 1⟩, ⟨1, IndexRange.MAX - 1⟩) := by decide

example : (IndexRange.mk IndexRange.MAX IndexRange.MAX).clearOverflow =
    (⟨0, IndexRange.MAX⟩, ⟨IndexRange.MAX, 0⟩) := by decide

example : ((IndexRangeList.fromVector [⟨100, 100⟩,
    IndexRange.fromExclusiveInterval 600 IndexRange.MAX]).remove ⟨125, 50⟩).bind
      (fun l => (l.remove ⟨650, 50⟩).map IndexRangeList.ranges) =
    some [⟨100, 25⟩, ⟨175, 25⟩, IndexRange.fromExclusiveInterval 600 650,
      IndexRange.fromExclusiveInterval 700 IndexRange.MAX] := by decide

example : ((IndexRangeList.fromVector [⟨500, 100⟩]).erase ⟨200, 100⟩).ranges = [⟨400, 100⟩] := by
  decide

/-! ## Arithmetic of `std::size_t` -/

theorem uadd_eq {a b : Nat} (h : a + b < MODULUS) : uadd a b = a + b := by
  unfold uadd; exact Nat.mod_eq_of_lt h

theorem usub_eq {a b : Nat} (h : b ≤ a) (ha : a < MODULUS) : usub a b = a - b := by
  unfold usub MODULUS at *; omega

namespace IndexRange

theorem Valid.wf {r : IndexRange} (h : r.Valid) : r.WF := by
  unfold Valid WF at *; omega

theorem Valid.getMax {r : IndexRange} (h : r.Valid) : r.getMax = r.location + r.size := by
  unfold IndexRange.getMax; exact uadd_eq h.2

theorem valid_iff {r : IndexRange} (h : r.WF) :
    r.Valid ↔ r.empty = false ∧ r.overflows = false := by
  unfold Valid WF empty overflows uadd MODULUS at *
  simp only [decide_eq_false_iff_not, not_lt]
  omega

theorem Valid.contains_iff {r : IndexRange} (h : r.Valid) {p : Nat} (hp : p < MODULUS) :
    r.contains p = true ↔ r.location ≤ p ∧ p < r.location + r.size := by
  unfold Valid contains usub MODULUS at *
  simp only [ge_iff_le, Bool.and_eq_true, decide_eq_true_eq]
  omega

/-! ## The order `operator<` -/

theorem lt_iff (a b : IndexRange) :
    a.lt b = true ↔
      a.location < b.location ∨ (a.location = b.location ∧ a.getMax < b.getMax) := by
  unfold lt getMax
  split_ifs <;> simp <;> omega

theorem lt_asymm {a b : IndexRange} (h : a.lt b = true) : b.lt a = false := by
  rw [← Bool.not_eq_true, lt_iff]
  rw [lt_iff] at h
  omega

theorem not_lt_trans {a b c : IndexRange} (h1 : b.lt a = false) (h2 : c.lt b = false) :
    c.lt a = false := by
  rw [← Bool.not_eq_true, lt_iff] at *
  omega

theorem eq_of_not_lt {a b : IndexRange} (ha : a.WF) (hb : b.WF)
    (h1 : b.lt a = false) (h2 : a.lt b = false) : a = b := by
  rw [← Bool.not_eq_true, lt_iff] at h1 h2
  unfold getMax uadd at h1 h2
  unfold WF at ha hb
  unfold MODULUS at *
  cases a; cases b
  simp only [IndexRange.mk.injEq] at *
  omega

theorem Valid.location_le {a b : IndexRange} (h : b.lt a = false) :
    a.location ≤ b.location := by
  rw [← Bool.not_eq_true, lt_iff] at h
  omega

end IndexRange

/-! ## `std::sort` -/

theorem sortInsert_perm (a : IndexRange) (l : List IndexRange) :
    (sortInsert a l).Perm (a :: l) := by
  induction l with
  | nil => exact List.Perm.refl _
  | cons b l ih =>
    unfold sortInsert
    split_ifs
    · exact ((List.Perm.cons b ih).trans (List.Perm.swap a b l))
    · exact List.Perm.refl _

theorem sortRanges_perm (l : List IndexRange) : (sortRanges l).Perm l := by
  induction l with
  | nil => exact List.Perm.refl _
  | cons a l ih => exact (sortInsert_perm a _).trans (List.Perm.cons a ih)

theorem sortInsert_pairwise (a : IndexRange) {l : List IndexRange}
    (h : l.Pairwise (fun x y => y.lt x = false)) :
    (sortInsert a l).Pairwise (fun x y => y.lt x = false) := by
  induction l with
  | nil => simp [sortInsert]
  | cons b l ih =>
    rw [List.pairwise_cons] at h
    unfold sortInsert
    split_ifs with hba
    · rw [List.pairwise_cons]
      refine ⟨?_, ih h.2⟩
      intro x hx
      rcases List.mem_cons.1 ((sortInsert_perm a l).subset hx) with rfl | hx
      · exact IndexRange.lt_asymm hba
      · exact h.1 x hx
    · rw [List.pairwise_cons, List.pairwise_cons]
      refine ⟨?_, h⟩
      intro x hx
      rcases List.mem_cons.1 hx with rfl | hx
      · simpa using hba
      · exact IndexRange.not_lt_trans (by simpa using hba) (h.1 x hx)

theorem sortRanges_pairwise (l : List IndexRange) :
    (sortRanges l).Pairwise (fun x y => y.lt x = false) := by
  induction l with
  | nil => simp [sortRanges]
  | cons a l ih => exact sortInsert_pairwise a ih

/-- On well-formed ranges the sorted arrangement is unique: whatever algorithm
`std::sort` runs, it returns `sortRanges`. -/
theorem sortRanges_unique {l s : List IndexRange} (hwf : ∀ e ∈ l, e.WF)
    (hp : s.Perm l) (hs : s.Pairwise (fun x y => y.lt x = false)) : s = sortRanges l := by
  refine List.Perm.eq_of_sorted ?_ hs (sortRanges_pairwise l) (hp.trans (sortRanges_perm l).symm)
  intro a b ha hb h1 h2
  exact IndexRange.eq_of_not_lt (hwf a (hp.subset ha))
    (hwf b ((sortRanges_perm l).subset hb)) h1 h2

theorem sortRanges_congr {l1 l2 : List IndexRange} (hwf : ∀ e ∈ l1, e.WF)
    (hp : l1.Perm l2) : sortRanges l1 = sortRanges l2 := by
  have hwf2 : ∀ e ∈ l2, e.WF := fun e he => hwf e (hp.symm.subset he)
  exact sortRanges_unique hwf2 ((sortRanges_perm l1).trans hp) (sortRanges_pairwise l1)

theorem sortRanges_of_sorted {l : List IndexRange}
    (hs : l.Pairwise (fun x y => y.lt x = false)) : sortRanges l = l := by
  induction l with
  | nil => rfl
  | cons a l ih =>
    rw [List.pairwise_cons] at hs
    unfold sortRanges
    rw [ih hs.2]
    cases l with
    | nil => rfl
    | cons b t =>
      unfold sortInsert
      rw [if_neg]
      simpa using hs.1 b (List.mem_cons_self _ _)

/-! ## The merging loop of `_sort` -/

namespace IndexRange

theorem mergeWith_touch {a b : IndexRange} (ha : a.Valid) (hb : b.Valid)
    (hab : a.location ≤ b.location) (h : b.location ≤ a.location + a.size) :
    a.mergeWith b =
      ⟨a.location, max (a.location + a.size) (b.location + b.size) - a.location⟩ := by
  obtain ⟨ha1, ha2⟩ := ha
  obtain ⟨hb1, hb2⟩ := hb
  simp only [mergeWith, intersects, intersectionWith, isAdjacentTo, unionWith, getMax,
    uadd_eq ha2, uadd_eq hb2]
  unfold usub MODULUS at *
  rw [if_pos]
  · simp only [IndexRange.mk.injEq]; omega
  · simp only [Bool.or_eq_true, decide_eq_true_eq]
    split_ifs <;> simp only [] <;> omega

theorem mergeWith_gap {a b : IndexRange} (ha : a.Valid) (hb : b.Valid)
    (h : a.location + a.size < b.location) :
    a.mergeWith b = ⟨0, 0⟩ := by
  obtain ⟨ha1, ha2⟩ := ha
  obtain ⟨hb1, hb2⟩ := hb
  simp only [mergeWith, intersects, intersectionWith, isAdjacentTo, unionWith, getMax,
    uadd_eq ha2, uadd_eq hb2]
  unfold usub MODULUS at *
  rw [if_neg]
  simp only [Bool.or_eq_true, decide_eq_true_eq]
  split_ifs <;> simp only [] <;> omega

end IndexRange

theorem covers_nil (p : Nat) : ¬ covers [] p := by
  rintro ⟨e, he, _⟩
  exact absurd he (List.not_mem_nil e)

theorem covers_cons (a : IndexRange) (l : List IndexRange) (p : Nat) :
    covers (a :: l) p ↔ a.contains p = true ∨ covers l p := by
  unfold covers
  simp only [List.mem_cons, exists_eq_or_imp]

theorem covers_append (l1 l2 : List IndexRange) (p : Nat) :
    covers (l1 ++ l2) p ↔ covers l1 p ∨ covers l2 p := by
  unfold covers
  simp only [List.mem_append, or_and_right, exists_or]

theorem covers_perm {l1 l2 : List IndexRange} (h : l1.Perm l2) (p : Nat) :
    covers l1 p ↔ covers l2 p := by
  unfold covers
  constructor
  · rintro ⟨e, he, hc⟩; exact ⟨e, h.subset he, hc⟩
  · rintro ⟨e, he, hc⟩; exact ⟨e, h.symm.subset he, hc⟩

theorem normalForm_nil : NormalForm [] :=
  ⟨fun _ h => absurd h (List.not_mem_nil _), List.chain'_nil⟩

theorem normalForm_singleton {a : IndexRange} (h : a.Valid) : NormalForm [a] :=
  ⟨fun e he => by rw [List.mem_singleton.1 he]; exact h, List.chain'_singleton a⟩

theorem mergeLoop_spec (rest : List IndexRange) :
    ∀ last : IndexRange, last.Valid → (∀ e ∈ rest, e.Valid) →
      (∀ e ∈ rest, last.location ≤ e.location) →
      rest.Pairwise (fun x y => x.location ≤ y.location) →
      NormalForm (mergeLoop last rest) ∧
      (∃ h t, mergeLoop last rest = h :: t ∧ h.location = last.location) ∧
      (∀ p, p < MODULUS →
        (covers (mergeLoop last rest) p ↔ last.contains p = true ∨ covers rest p)) := by
  induction rest with
  | nil =>
    intro last hl _ _ _
    refine ⟨normalForm_singleton hl, ⟨last, [], rfl, rfl⟩, ?_⟩
    intro p _
    unfold mergeLoop
    rw [covers_cons]
  | cons curr rest ih =>
    intro last hl hv hle hs
    have hc : curr.Valid := hv curr (List.mem_cons_self _ _)
    have hv1 : ∀ e ∈ rest, e.Valid := fun e he => hv e (List.mem_cons_of_mem _ he)
    have hlc : last.location ≤ curr.location := hle curr (List.mem_cons_self _ _)
    rw [List.pairwise_cons] at hs
    by_cases ht : curr.location ≤ last.location + last.size
    · have hm := IndexRange.mergeWith_touch hl hc hlc ht
      have hmv : (last.mergeWith curr).Valid := by
        rw [hm]; unfold IndexRange.Valid at *; simp only; omega
      have hsz : (last.mergeWith curr).size ≠ 0 := by
        unfold IndexRange.Valid at hmv; omega
      have hloc : (last.mergeWith curr).location = last.location := by rw [hm]
      have step : mergeLoop last (curr :: rest) = mergeLoop (last.mergeWith curr) rest := by
        conv_lhs => unfold mergeLoop
        simp only [hsz, ne_eq, not_false_eq_true, if_true]
      obtain ⟨h1, ⟨h, t, h2, h3⟩, h4⟩ := ih (last.mergeWith curr) hmv hv1
        (fun e he => by rw [hloc]; exact hle e (List.mem_cons_of_mem _ he)) hs.2
      rw [step]
      refine ⟨h1, ⟨h, t, h2, by rw [h3, hloc]⟩, ?_⟩
      intro p hp
      rw [h4 p hp, covers_cons, ← or_assoc]
      refine or_congr_left ?_
      rw [hmv.contains_iff hp, hl.contains_iff hp, hc.contains_iff hp, hm]
      unfold IndexRange.Valid at hl hc
      simp only
      omega
    · have hm := IndexRange.mergeWith_gap hl hc (by omega)
      have step : mergeLoop last (curr :: rest) = last :: mergeLoop curr rest := by
        conv_lhs => unfold mergeLoop
        simp only [hm, ne_eq, not_true_eq_false, if_false]
      obtain ⟨h1, ⟨h, t, h2, h3⟩, h4⟩ := ih curr hc hv1 hs.1 hs.2
      rw [step]
      refine ⟨⟨?_, ?_⟩, ⟨last, _, rfl, rfl⟩, ?_⟩
      · intro e he
        rcases List.mem_cons.1 he with rfl | he
        · exact hl
        · exact h1.1 e he
      · rw [h2, List.chain'_cons]
        refine ⟨by rw [h3]; omega, ?_⟩
        rw [← h2]; exact h1.2
      · intro p hp
        rw [covers_cons, h4 p hp, covers_cons]

theorem mergeLoop_of_normalForm (rest : List IndexRange) :
    ∀ first : IndexRange, NormalForm (first :: rest) → mergeLoop first rest = first :: rest := by
  induction rest with
  | nil => intro first _; rfl
  | cons curr rest ih =>
    intro first h
    obtain ⟨hv, hc⟩ := h
    rw [List.chain'_cons] at hc
    have hm := IndexRange.mergeWith_gap (hv first (List.mem_cons_self _ _))
      (hv curr (List.mem_cons_of_mem _ (List.mem_cons_self _ _))) hc.1
    conv_lhs => unfold mergeLoop
    simp only [hm, ne_eq, not_true_eq_false, if_false]
    rw [ih curr ⟨fun e he => hv e (List.mem_cons_of_mem _ he), hc.2⟩]

/-! ## `validate` and `_sort` -/

theorem validate_eq_of_wf {r : IndexRange} (h : r.WF) :
    validate r =
      if r.location + r.size < MODULUS then r
      else { location := r.location, size := IndexRange.MAX - r.location } := by
  unfold validate IndexRange.clearOverflow
  unfold IndexRange.WF at h
  dsimp only
  unfold uadd usub IndexRange.MAX MODULUS at *
  split_ifs
  · omega
  · simp only [IndexRange.mk.injEq, true_and]; omega
  · rfl
  · omega

theorem validate_wf {r : IndexRange} (h : r.WF) : (validate r).WF := by
  rw [validate_eq_of_wf h]
  unfold IndexRange.WF IndexRange.MAX MODULUS at *
  split_ifs
  · exact h
  · simp only; omega

theorem validate_valid {r : IndexRange} (h : r.WF) (hne : (validate r).empty = false) :
    (validate r).Valid := by
  rw [validate_eq_of_wf h] at hne ⊢
  unfold IndexRange.empty at hne
  unfold IndexRange.WF IndexRange.Valid IndexRange.MAX MODULUS at *
  split_ifs at hne ⊢ <;> simp only [decide_eq_false_iff_not] at hne ⊢ <;> omega

theorem validate_of_valid {r : IndexRange} (h : r.Valid) : validate r = r := by
  rw [validate_eq_of_wf h.wf, if_pos h.2]

theorem normalForm_tail {a : IndexRange} {l : List IndexRange} (h : NormalForm (a :: l)) :
    NormalForm l :=
  ⟨fun e he => h.1 e (List.mem_cons_of_mem _ he), h.2.tail⟩

theorem normalForm_pairwise {l : List IndexRange} (h : NormalForm l) :
    l.Pairwise (fun x y => x.location + x.size < y.location) := by
  induction l with
  | nil => exact List.Pairwise.nil
  | cons a l ih =>
    rw [List.pairwise_cons]
    have ht := normalForm_tail h
    refine ⟨?_, ih ht⟩
    intro y hy
    cases l with
    | nil => exact absurd hy (List.not_mem_nil y)
    | cons b t =>
      have hab : a.location + a.size < b.location := (List.chain'_cons.1 h.2).1
      rcases List.mem_cons.1 hy with rfl | hy
      · exact hab
      · have hby := List.rel_of_pairwise_cons (ih ht) hy
        have hb := (h.1 b (List.mem_cons_of_mem _ (List.mem_cons_self _ _))).1
        omega

theorem normalForm_sorted {l : List IndexRange} (h : NormalForm l) :
    l.Pairwise (fun x y => y.lt x = false) := by
  refine (normalForm_pairwise h).imp ?_
  intro a b hab
  rw [← Bool.not_eq_true, IndexRange.lt_iff]
  omega

namespace IndexRangeList

theorem _sort_of_sorted {l : IndexRangeList} (h : l._sorted = true) : l._sort = l := by
  unfold _sort
  simp [h]

theorem _sort_sorted (l : IndexRangeList) : l._sort._sorted = true := by
  unfold _sort
  split_ifs with h1 h2
  · split <;> rfl
  · rfl
  · simpa using h1

theorem _sort_spec {l : IndexRangeList} (hv : ∀ e ∈ l._ranges, e.Valid)
    (hs : l._sorted = false) :
    NormalForm l._sort._ranges ∧
      ∀ p, p < MODULUS → (covers l._sort._ranges p ↔ covers l._ranges p) := by
  unfold _sort
  simp only [hs, Bool.not_false, if_true]
  split_ifs with hlen
  · have hperm := sortRanges_perm l._ranges
    have hpw := sortRanges_pairwise l._ranges
    split
    · next heq =>
      rw [heq] at hperm
      refine ⟨normalForm_nil, fun p _ => covers_perm hperm p⟩
    · next first rest heq =>
      rw [heq] at hperm hpw
      rw [List.pairwise_cons] at hpw
      have hv1 : ∀ e ∈ first :: rest, e.Valid := fun e he => hv e (hperm.subset he)
      obtain ⟨h1, _, h3⟩ := mergeLoop_spec rest first (hv1 first (List.mem_cons_self _ _))
        (fun e he => hv1 e (List.mem_cons_of_mem _ he))
        (fun e he => IndexRange.Valid.location_le (hpw.1 e he))
        (hpw.2.imp (fun h => IndexRange.Valid.location_le h))
      refine ⟨h1, fun p hp => ?_⟩
      rw [h3 p hp, ← covers_cons, covers_perm hperm]
  · refine ⟨?_, fun p _ => Iff.rfl⟩
    cases hl : l._ranges with
    | nil => exact normalForm_nil
    | cons a t =>
      cases t with
      | nil => exact normalForm_singleton (hv a (by rw [hl]; exact List.mem_cons_self _ _))
      | cons b t => rw [hl] at hlen; simp at hlen

theorem _sort_of_normalForm {l : IndexRangeList} (h : NormalForm l._ranges) :
    l._sort = { _ranges := l._ranges, _sorted := true } := by
  by_cases hs : l._sorted = true
  · rw [_sort_of_sorted hs]
    cases l
    simp only at hs
    simp only [hs]
  · unfold _sort
    simp only [hs, Bool.not_false, if_true]
    split_ifs with hlen
    · rw [sortRanges_of_sorted (normalForm_sorted h)]
      split
      · next heq => rw [heq]
      · next first rest heq =>
        rw [heq] at h
        rw [mergeLoop_of_normalForm rest first h, heq]
    · rfl

end IndexRangeList

namespace IndexRangeList

/-! ## The representation invariant -/

theorem inv_default : Inv {} :=
  ⟨fun _ h => absurd h (List.not_mem_nil _), fun h => by simp at h⟩

theorem inv_add {l : IndexRangeList} (h : l.Inv) {r : IndexRange} (hr : r.WF) :
    (l.add r).Inv := by
  unfold add
  dsimp only
  split_ifs with he
  · exact h
  · refine ⟨?_, fun hs => by simp at hs⟩
    intro e hmem
    rcases List.mem_append.1 hmem with hmem | hmem
    · exact h.1 e hmem
    · rw [List.mem_singleton.1 hmem]
      exact validate_valid hr (by simpa using he)

theorem inv_sort {l : IndexRangeList} (h : l.Inv) :
    l._sort.Inv ∧ NormalForm l._sort._ranges ∧
      ∀ p, p < MODULUS → (covers l._sort._ranges p ↔ covers l._ranges p) := by
  by_cases hs : l._sorted = true
  · rw [_sort_of_sorted hs]
    exact ⟨h, h.2 hs, fun p _ => Iff.rfl⟩
  · have hs1 : l._sorted = false := by simpa using hs
    obtain ⟨h1, h2⟩ := _sort_spec h.1 hs1
    exact ⟨⟨h1.1, fun _ => h1⟩, h1, h2⟩

theorem foldl_add_ranges (xs : List IndexRange) :
    ∀ l : IndexRangeList, (xs.foldl add l)._ranges =
      l._ranges ++ (xs.map validate).filter (fun r => !r.empty) := by
  induction xs with
  | nil => intro l; simp
  | cons x xs ih =>
    intro l
    rw [List.foldl_cons, ih]
    unfold add
    dsimp only
    by_cases he : (validate x).empty = true
    · simp [he]
    · simp [he]

theorem foldl_add_sorted (xs : List IndexRange) :
    ∀ l : IndexRangeList, l._sorted = false → (xs.foldl add l)._sorted = false := by
  induction xs with
  | nil => intro l h; exact h
  | cons x xs ih =>
    intro l h
    rw [List.foldl_cons]
    apply ih
    unfold add
    dsimp only
    split_ifs
    · exact h
    · rfl

theorem fromVector_eq (xs : List IndexRange) :
    fromVector xs =
      { _ranges := (xs.map validate).filter (fun r => !r.empty), _sorted := false } := by
  have h1 := foldl_add_ranges xs {}
  have h2 := foldl_add_sorted xs {} rfl
  unfold fromVector
  cases hl : List.foldl add {} xs with
  | mk rs s =>
    rw [hl] at h1 h2
    simp only [List.nil_append] at h1 h2
    rw [h1, h2]

theorem fromVector_valid {xs : List IndexRange} (hxs : ∀ x ∈ xs, x.WF) :
    ∀ e ∈ (xs.map validate).filter (fun r => !r.empty), e.Valid := by
  intro e he
  rw [List.mem_filter, List.mem_map] at he
  obtain ⟨⟨x, hx, rfl⟩, hne⟩ := he
  exact validate_valid (hxs x hx) (by simpa using hne)

theorem inv_fromVector {xs : List IndexRange} (hxs : ∀ x ∈ xs, x.WF) : (fromVector xs).Inv := by
  rw [fromVector_eq]
  exact ⟨fromVector_valid hxs, fun h => by simp at h⟩

end IndexRangeList

theorem run_add_observer_inv (calls : List Call) :
    ∀ l : IndexRangeList, l.Inv → (∀ c ∈ calls, c.WF) →
      (∀ c ∈ calls, c.isAddOrObserver = true) →
      ∃ l1, Call.run l calls = some l1 ∧ l1.Inv := by
  induction calls with
  | nil => intro l h _ _; exact ⟨l, rfl, h⟩
  | cons c cs ih =>
    intro l h hwf hadd
    have hc := hwf c (List.mem_cons_self _ _)
    have ha := hadd c (List.mem_cons_self _ _)
    have hwf1 : ∀ c ∈ cs, c.WF := fun d hd => hwf d (List.mem_cons_of_mem _ hd)
    have hadd1 : ∀ c ∈ cs, c.isAddOrObserver = true :=
      fun d hd => hadd d (List.mem_cons_of_mem _ hd)
    cases c with
    | add r => exact ih _ (IndexRangeList.inv_add h hc) hwf1 hadd1
    | size => exact ih _ (IndexRangeList.inv_sort h).1 hwf1 hadd1
    | empty => exact ih _ (IndexRangeList.inv_sort h).1 hwf1 hadd1
    | ranges => exact ih _ (IndexRangeList.inv_sort h).1 hwf1 hadd1
    | remove r => simp [Call.isAddOrObserver] at ha
    | insert r => simp [Call.isAddOrObserver] at ha
    | erase r => simp [Call.isAddOrObserver] at ha
    | clear => simp [Call.isAddOrObserver] at ha

theorem normalForm_chain_source {l : List IndexRange} (h : NormalForm l) :
    l.Chain' (fun e f => e.getMax < f.getMin) := by
  induction l with
  | nil => exact List.chain'_nil
  | cons a l ih =>
    cases l with
    | nil => exact List.chain'_singleton a
    | cons b t =>
      rw [List.chain'_cons]
      refine ⟨?_, ih (normalForm_tail h)⟩
      rw [(h.1 a (List.mem_cons_self _ _)).getMax]
      exact (List.chain'_cons.1 h.2).1

theorem normalForm_source {l : List IndexRange} (h : NormalForm l) :
    (∀ e ∈ l, e.empty = false ∧ e.overflows = false) ∧
      l.Chain' (fun e f => e.getMax < f.getMin) :=
  ⟨fun e he => (IndexRange.valid_iff (h.1 e he).wf).1 (h.1 e he), normalForm_chain_source h⟩

/-! ## The claims -/

/-- C1: after any sequence of `add` calls (the constructor from a vector of
ranges included), with the observers `size()`, `empty()`, `ranges()` interleaved
anywhere, the vector returned by `ranges()` is in normal form: every entry is
non-empty and does not overflow, and the exclusive end of each entry lies strictly
below the start of the next one. -/
theorem add_ranges_normal_form (xs : List IndexRange) (calls : List Call)
    (hxs : ∀ x ∈ xs, x.WF) (hwf : ∀ c ∈ calls, c.WF)
    (hadd : ∀ c ∈ calls, c.isAddOrObserver = true) :
    ∃ l, Call.run (IndexRangeList.fromVector xs) calls = some l ∧
      (∀ e ∈ l.ranges, e.empty = false ∧ e.overflows = false) ∧
      l.ranges.Chain' (fun e f => e.getMax < f.getMin) := by
  obtain ⟨l, h1, h2⟩ :=
    run_add_observer_inv calls _ (IndexRangeList.inv_fromVector hxs) hwf hadd
  exact ⟨l, h1, normalForm_source (IndexRangeList.inv_sort h2).2.1⟩

theorem add_ranges_normal_form_witness :
    (∀ x ∈ [IndexRange.mk 4 7, IndexRange.mk 18446744073709551615 9], x.WF) ∧
    (∀ c ∈ [Call.add ⟨1, 1⟩, Call.ranges, Call.add ⟨11, 1⟩, Call.add ⟨2, 1⟩, Call.size], c.WF) ∧
    (∀ c ∈ [Call.add ⟨1, 1⟩, Call.ranges, Call.add ⟨11, 1⟩, Call.add ⟨2, 1⟩, Call.size],
      c.isAddOrObserver = true) ∧
    ∃ l, Call.run
        (IndexRangeList.fromVector [IndexRange.mk 4 7, IndexRange.mk 18446744073709551615 9])
        [Call.add ⟨1, 1⟩, Call.ranges, Call.add ⟨11, 1⟩, Call.add ⟨2, 1⟩, Call.size] = some l ∧
      (∀ e ∈ l.ranges, e.empty = false ∧ e.overflows = false) ∧
      l.ranges.Chain' (fun e f => e.getMax < f.getMin) :=
  ⟨by decide, by decide, by decide,
    add_ranges_normal_form [IndexRange.mk 4 7, IndexRange.mk 18446744073709551615 9]
      [Call.add ⟨1, 1⟩, Call.ranges, Call.add ⟨11, 1⟩, Call.add ⟨2, 1⟩, Call.size]
      (by decide) (by decide) (by decide)⟩

theorem contains_nonempty {r : IndexRange} {p : Nat} (h : r.contains p = true) :
    r.empty = false := by
  unfold IndexRange.contains at h
  unfold IndexRange.empty
  simp only [ge_iff_le, Bool.and_eq_true, decide_eq_true_eq] at h
  simp only [decide_eq_false_iff_not]
  omega

/-- C2: for every vector of ranges `xs` and every index `p`, some entry of
`IndexRangeList(xs).ranges()` contains `p` if and only if `validate(x).contains(p)`
for some `x` in `xs`: the normalised list covers exactly the union of the validated
inputs. -/
theorem ranges_covers_union (xs : List IndexRange) (hxs : ∀ x ∈ xs, x.WF)
    (p : Nat) (hp : p < MODULUS) :
    (∃ e ∈ (IndexRangeList.fromVector xs).ranges, e.contains p = true) ↔
      ∃ x ∈ xs, (validate x).contains p = true := by
  have h := (IndexRangeList.inv_sort (IndexRangeList.inv_fromVector hxs)).2.2 p hp
  unfold covers at h
  unfold IndexRangeList.ranges
  rw [h, IndexRangeList.fromVector_eq]
  constructor
  · rintro ⟨e, he, hc⟩
    rw [List.mem_filter, List.mem_map] at he
    obtain ⟨⟨x, hx, rfl⟩, _⟩ := he
    exact ⟨x, hx, hc⟩
  · rintro ⟨x, hx, hc⟩
    refine ⟨validate x, ?_, hc⟩
    rw [List.mem_filter, List.mem_map]
    exact ⟨⟨x, hx, rfl⟩, by simp [contains_nonempty hc]⟩

theorem ranges_covers_union_witness :
    (∀ x ∈ [IndexRange.mk 4 7, IndexRange.mk 1 2, IndexRange.mk 3 1], x.WF) ∧
    5 < MODULUS ∧
    ((∃ e ∈ (IndexRangeList.fromVector
        [IndexRange.mk 4 7, IndexRange.mk 1 2, IndexRange.mk 3 1]).ranges,
        e.contains 5 = true) ↔
      ∃ x ∈ [IndexRange.mk 4 7, IndexRange.mk 1 2, IndexRange.mk 3 1],
        (validate x).contains 5 = true) :=
  ⟨by decide, by decide,
    ranges_covers_union [IndexRange.mk 4 7, IndexRange.mk 1 2, IndexRange.mk 3 1] (by decide)
      5 (by decide)⟩

/-- C3: for all vectors of ranges `xs` and `ys` that are permutations of each
other, `IndexRangeList(xs).ranges()` equals `IndexRangeList(ys).ranges()`: the
normalised result does not depend on the insertion order. -/
theorem ranges_perm_invariant (xs ys : List IndexRange) (hxs : ∀ x ∈ xs, x.WF)
    (hperm : xs.Perm ys) :
    (IndexRangeList.fromVector xs).ranges = (IndexRangeList.fromVector ys).ranges := by
  have hp : ((xs.map validate).filter (fun r => !r.empty)).Perm
      ((ys.map validate).filter (fun r => !r.empty)) := (hperm.map validate).filter _
  have hwf : ∀ e ∈ (xs.map validate).filter (fun r => !r.empty), e.WF :=
    fun e he => (IndexRangeList.fromVector_valid hxs e he).wf
  unfold IndexRangeList.ranges
  rw [IndexRangeList.fromVector_eq, IndexRangeList.fromVector_eq]
  unfold IndexRangeList._sort
  simp only [Bool.not_false, if_true]
  rw [← hp.length_eq, ← sortRanges_congr hwf hp]
  split_ifs with hlen
  · rfl
  · simp only
    generalize (xs.map validate).filter (fun r => !r.empty) = A at hp hlen
    generalize (ys.map validate).filter (fun r => !r.empty) = B at hp
    cases A with
    | nil => exact hp.nil_eq
    | cons a t =>
      cases t with
      | nil => exact List.singleton_perm.1 hp
      | cons b t => simp at hlen

theorem ranges_perm_invariant_witness :
    (∀ x ∈ [IndexRange.mk 4 7, IndexRange.mk 1 2, IndexRange.mk 3 1], x.WF) ∧
    [IndexRange.mk 4 7, IndexRange.mk 1 2, IndexRange.mk 3 1].Perm
      [IndexRange.mk 3 1, IndexRange.mk 4 7, IndexRange.mk 1 2] ∧
    (IndexRangeList.fromVector [IndexRange.mk 4 7, IndexRange.mk 1 2, IndexRange.mk 3 1]).ranges =
      (IndexRangeList.fromVector [IndexRange.mk 3 1, IndexRange.mk 4 7, IndexRange.mk 1 2]).ranges :=
  ⟨by decide, by decide,
    ranges_perm_invariant [IndexRange.mk 4 7, IndexRange.mk 1 2, IndexRange.mk 3 1]
      [IndexRange.mk 3 1, IndexRange.mk 4 7, IndexRange.mk 1 2] (by decide) (by decide)⟩

/-! ## `remove` -/

namespace IndexRange

theorem intersectionWith_valid {w e : IndexRange} (hw : w.Valid) (he : e.Valid) :
    w.intersectionWith e =
      if max w.location e.location < min (w.location + w.size) (e.location + e.size) then
        ⟨max w.location e.location,
          min (w.location + w.size) (e.location + e.size) - max w.location e.location⟩
      else ⟨0, 0⟩ := by
  obtain ⟨hw1, hw2⟩ := hw
  obtain ⟨he1, he2⟩ := he
  simp only [intersectionWith, uadd_eq hw2, uadd_eq he2]
  unfold usub MODULUS at *
  split_ifs <;> simp only [IndexRange.mk.injEq, true_and, and_true] <;> omega

theorem setMin_valid {e : IndexRange} (he : e.Valid) {v : Nat} (hv : v ≤ e.location + e.size) :
    e.setMin v = ⟨v, e.location + e.size - v⟩ := by
  obtain ⟨he1, he2⟩ := he
  simp only [setMin, uadd_eq he2]
  unfold usub MODULUS at *
  split_ifs <;> simp only [IndexRange.mk.injEq, true_and, and_true] <;> omega

theorem setMax_valid {e : IndexRange} (he : e.Valid) {v : Nat} (hv : e.location ≤ v)
    (hv2 : v < MODULUS) : e.setMax v = ⟨e.location, v - e.location⟩ := by
  obtain ⟨he1, he2⟩ := he
  simp only [setMax]
  unfold usub MODULUS at *
  split_ifs <;> simp only [IndexRange.mk.injEq, true_and, and_true] <;> omega

end IndexRange

theorem removeLoop_cons (range : IndexRange) (fuel : Nat) (found : Bool) (it : IndexRange)
    (rest : List IndexRange) :
    IndexRangeList.removeLoop range (fuel + 1) found (it :: rest) =
      if (range.intersectionWith it).size ≠ 0 then
        if (range.intersectionWith it).getMin = it.getMin then
          if (range.intersectionWith it).getMax < it.getMax then
            (IndexRangeList.removeLoop range fuel true rest).map
              (fun t => it.setMin (range.intersectionWith it).getMax :: t)
          else
            IndexRangeList.removeLoop range fuel true rest
        else if (range.intersectionWith it).getMax = it.getMax then
          (IndexRangeList.removeLoop range fuel true rest).map
            (fun t => it.setMax (range.intersectionWith it).getMin :: t)
        else
          IndexRangeList.removeLoop range fuel true
            (it.setMin (range.intersectionWith it).getMax ::
              it.setMax (range.intersectionWith it).getMin :: rest)
      else if found then
        some (it :: rest)
      else
        (IndexRangeList.removeLoop range fuel false rest).map (fun t => it :: t) := by
  rfl

theorem differencePieces_beyond {w e : IndexRange} (he : e.Valid)
    (h : w.location + w.size ≤ e.location) (hw : w.Valid) : differencePieces w e = [e] := by
  unfold differencePieces
  unfold IndexRange.Valid at *
  rw [if_neg (by omega), if_pos (by omega)]
  cases e
  simp only [List.nil_append, List.cons.injEq, IndexRange.mk.injEq, and_true] at *
  omega

theorem flatMap_differencePieces_beyond {w : IndexRange} (hw : w.Valid) (rest : List IndexRange)
    (h : ∀ f ∈ rest, f.Valid ∧ w.location + w.size ≤ f.location) :
    rest.flatMap (differencePieces w) = rest := by
  induction rest with
  | nil => rfl
  | cons f rest ih =>
    rw [List.flatMap_cons, differencePieces_beyond (h f (List.mem_cons_self _ _)).1
      (h f (List.mem_cons_self _ _)).2 hw, ih (fun g hg => h g (List.mem_cons_of_mem _ hg))]
    rfl

theorem intersectionWith_beyond {w h : IndexRange} (hw : w.Valid) (hh : h.Valid)
    (hb : w.location + w.size ≤ h.location) : w.intersectionWith h = ⟨0, 0⟩ := by
  rw [IndexRange.intersectionWith_valid hw hh, if_neg (by omega)]

theorem removeLoop_spec {w : IndexRange} (hw : w.Valid) (R : List IndexRange) :
    ∀ (fuel : Nat) (found : Bool), R.length + 2 ≤ fuel → (∀ e ∈ R, e.Valid) →
      R.Pairwise (fun x y => x.location + x.size < y.location) →
      (found = true → ∀ f ∈ R, w.location < f.location) →
      ∃ rs, IndexRangeList.removeLoop w fuel found R = some rs ∧
        rs.Perm (R.flatMap (differencePieces w)) := by
  induction R with
  | nil =>
    intro fuel found hf _ _ _
    obtain ⟨n, rfl⟩ : ∃ n, fuel = n + 1 := ⟨fuel - 1, by omega⟩
    exact ⟨[], rfl, List.Perm.refl _⟩
  | cons e rest ih =>
    intro fuel found hf hv hpw hfound
    obtain ⟨n, rfl⟩ : ∃ n, fuel = n + 1 := ⟨fuel - 1, by omega⟩
    have hn : rest.length + 2 ≤ n := by simp only [List.length_cons] at hf; omega
    have he : e.Valid := hv e (List.mem_cons_self _ _)
    have hv1 : ∀ f ∈ rest, f.Valid := fun f hf => hv f (List.mem_cons_of_mem _ hf)
    rw [List.pairwise_cons] at hpw
    have hw1 := hw.1
    have hw2 := hw.2
    have he1 := he.1
    have he2 := he.2
    rw [removeLoop_cons, List.flatMap_cons]
    by_cases hov : max w.location e.location <
        min (w.location + w.size) (e.location + e.size)
    · -- the entry overlaps the window
      have hI : w.intersectionWith e = ⟨max w.location e.location,
          min (w.location + w.size) (e.location + e.size) - max w.location e.location⟩ := by
        rw [IndexRange.intersectionWith_valid hw he, if_pos hov]
      have hmax : (w.intersectionWith e).getMax =
          min (w.location + w.size) (e.location + e.size) := by
        rw [hI]; unfold IndexRange.getMax uadd MODULUS at *; simp only; omega
      have hmin : (w.intersectionWith e).getMin = max w.location e.location := by
        rw [hI]; rfl
      have hsz : (w.intersectionWith e).size ≠ 0 := by rw [hI]; simp only; omega
      have hrest : ∀ f ∈ rest, w.location < f.location := by
        intro f hf
        have := hpw.1 f hf
        omega
      obtain ⟨rs, hrs, hperm⟩ := ih n true hn hv1 hpw.2 (fun _ => hrest)
      rw [if_pos hsz, hmin, hmax, he.getMax]
      unfold IndexRange.getMin
      by_cases hlow : w.location ≤ e.location
      · rw [if_pos (by omega)]
        by_cases hhi : w.location + w.size < e.location + e.size
        · rw [if_pos (by omega), hrs]
          refine ⟨_, rfl, ?_⟩
          rw [IndexRange.setMin_valid he (by omega)]
          unfold differencePieces
          rw [if_neg (by omega), if_pos hhi]
          have e1 : min (w.location + w.size) (e.location + e.size) = w.location + w.size := by
            omega
          have e2 : max e.location (w.location + w.size) = w.location + w.size := by omega
          rw [e1, e2]
          exact List.Perm.cons _ hperm
        · rw [if_neg (by omega), hrs]
          refine ⟨_, rfl, ?_⟩
          unfold differencePieces
          rw [if_neg (by omega), if_neg hhi]
          exact hperm
      · rw [if_neg (by omega)]
        have e3 : max w.location e.location = w.location := by omega
        by_cases hhi : w.location + w.size < e.location + e.size
        · rw [if_neg (by omega)]
          have e1 : min (w.location + w.size) (e.location + e.size) = w.location + w.size := by
            omega
          have e2 : max e.location (w.location + w.size) = w.location + w.size := by omega
          rw [e1, e3, IndexRange.setMin_valid he (by omega),
            IndexRange.setMax_valid he (by omega) (by unfold MODULUS at *; omega)]
          obtain ⟨m, rfl⟩ : ∃ m, n = m + 1 := ⟨n - 1, by omega⟩
          have hhiv : IndexRange.Valid ⟨w.location + w.size,
              e.location + e.size - (w.location + w.size)⟩ := by
            unfold IndexRange.Valid; simp only; omega
          rw [removeLoop_cons, intersectionWith_beyond hw hhiv (Nat.le_refl _)]
          simp only [ne_eq, not_true_eq_false, if_false, if_true]
          refine ⟨_, rfl, ?_⟩
          rw [flatMap_differencePieces_beyond hw rest
            (fun f hf => ⟨hv1 f hf, by have := hpw.1 f hf; omega⟩)]
          unfold differencePieces
          rw [if_pos (by omega), if_pos hhi, e2]
          have e4 : min (e.location + e.size) w.location = w.location := by omega
          rw [e4]
          exact List.Perm.swap _ _ _
        · rw [if_pos (by omega), hrs]
          refine ⟨_, rfl, ?_⟩
          rw [e3, IndexRange.setMax_valid he (by omega) (by unfold MODULUS at *; omega)]
          unfold differencePieces
          rw [if_pos (by omega), if_neg hhi]
          have e4 : min (e.location + e.size) w.location = w.location := by omega
          rw [e4]
          exact List.Perm.cons _ hperm
    · -- the entry does not meet the window
      have hI : w.intersectionWith e = ⟨0, 0⟩ := by
        rw [IndexRange.intersectionWith_valid hw he, if_neg hov]
      rw [hI]
      simp only [ne_eq, not_true_eq_false, if_false]
      cases found with
      | true =>
        simp only [if_true]
        refine ⟨_, rfl, ?_⟩
        have hloc := hfound rfl e (List.mem_cons_self _ _)
        rw [differencePieces_beyond he (by omega) hw, flatMap_differencePieces_beyond hw rest
          (fun f hf => ⟨hv1 f hf, by have := hpw.1 f hf; omega⟩)]
        exact List.Perm.refl _
      | false =>
        obtain ⟨rs, hrs, hperm⟩ := ih n false hn hv1 hpw.2 (fun h => by simp at h)
        simp only [Bool.false_eq_true, if_false, hrs]
        refine ⟨_, rfl, ?_⟩
        have hp : differencePieces w e = [e] := by
          unfold differencePieces
          by_cases hb : e.location < w.location
          · rw [if_pos hb, if_neg (by omega)]
            cases e
            simp only [List.append_nil, List.cons.injEq, IndexRange.mk.injEq, and_true,
              true_and] at *
            omega
          · exact differencePieces_beyond he (by omega) hw
        rw [hp]
        exact List.Perm.cons _ hperm

theorem differencePieces_sub {w e : IndexRange} (hw : w.Valid) (he : e.Valid) :
    ∀ x ∈ differencePieces w e,
      x.Valid ∧ e.location ≤ x.location ∧ x.location + x.size ≤ e.location + e.size := by
  intro x hx
  unfold differencePieces at hx
  unfold IndexRange.Valid at *
  rw [List.mem_append] at hx
  rcases hx with hx | hx
  · split_ifs at hx with h
    · rw [List.mem_singleton.1 hx]; simp only; omega
    · exact absurd hx (List.not_mem_nil _)
  · split_ifs at hx with h
    · rw [List.mem_singleton.1 hx]; simp only; omega
    · exact absurd hx (List.not_mem_nil _)

theorem differencePieces_pairwise {w : IndexRange} (hw : w.Valid) (e : IndexRange) :
    (differencePieces w e).Pairwise (fun x y => x.location + x.size < y.location) := by
  unfold differencePieces
  unfold IndexRange.Valid at hw
  split_ifs <;> simp
  omega

theorem differencePieces_covers {w e : IndexRange} (hw : w.Valid) (he : e.Valid) {p : Nat}
    (hp : p < MODULUS) :
    covers (differencePieces w e) p ↔ e.contains p = true ∧ w.contains p = false := by
  rw [← Bool.not_eq_true, he.contains_iff hp, hw.contains_iff hp]
  have hsub := differencePieces_sub hw he
  unfold differencePieces at *
  unfold IndexRange.Valid at hw he
  split_ifs at hsub ⊢ with h1 h2 h2
  · rw [List.singleton_append, covers_cons, covers_cons,
      (hsub _ (by simp)).1.contains_iff hp,
      (hsub _ (List.mem_cons_of_mem _ (List.mem_singleton.2 rfl))).1.contains_iff hp]
    simp only [covers_nil, or_false]
    omega
  · rw [List.append_nil, covers_cons, (hsub _ (by simp)).1.contains_iff hp]
    simp only [covers_nil, or_false]
    omega
  · rw [List.nil_append, covers_cons, (hsub _ (by simp)).1.contains_iff hp]
    simp only [covers_nil, or_false]
    omega
  · rw [List.append_nil]
    simp only [covers_nil, false_iff]
    omega

theorem flatMap_differencePieces_spec {w : IndexRange} (hw : w.Valid) (R : List IndexRange)
    (hv : ∀ e ∈ R, e.Valid)
    (hpw : R.Pairwise (fun x y => x.location + x.size < y.location)) :
    (∀ x ∈ R.flatMap (differencePieces w), x.Valid) ∧
      (R.flatMap (differencePieces w)).Pairwise (fun x y => x.location + x.size < y.location) ∧
      ∀ p, p < MODULUS →
        (covers (R.flatMap (differencePieces w)) p ↔ covers R p ∧ w.contains p = false) := by
  induction R with
  | nil =>
    refine ⟨fun x hx => absurd hx (List.not_mem_nil _), List.Pairwise.nil, fun p _ => ?_⟩
    simp only [List.flatMap_nil, covers_nil, false_and]
  | cons e R ih =>
    have he := hv e (List.mem_cons_self _ _)
    have hv1 : ∀ f ∈ R, f.Valid := fun f hf => hv f (List.mem_cons_of_mem _ hf)
    rw [List.pairwise_cons] at hpw
    obtain ⟨ih1, ih2, ih4⟩ := ih hv1 hpw.2
    have hsub := differencePieces_sub hw he
    have hfrom : ∀ y ∈ R.flatMap (differencePieces w), e.location + e.size < y.location := by
      intro y hy
      rw [List.mem_flatMap] at hy
      obtain ⟨f, hf, hy⟩ := hy
      have h1 := (differencePieces_sub hw (hv1 f hf) y hy).2.1
      have h2 := hpw.1 f hf
      omega
    rw [List.flatMap_cons]
    refine ⟨?_, ?_, ?_⟩
    · intro x hx
      rcases List.mem_append.1 hx with hx | hx
      · exact (hsub x hx).1
      · exact ih1 x hx
    · rw [List.pairwise_append]
      refine ⟨differencePieces_pairwise hw e, ih2, ?_⟩
      intro x hx y hy
      have h1 := (hsub x hx).2.2
      have h2 := hfrom y hy
      omega
    · intro p hp
      rw [covers_append, differencePieces_covers hw he hp, ih4 p hp, covers_cons]
      tauto

theorem normalForm_of_pairwise {l : List IndexRange} (hv : ∀ e ∈ l, e.Valid)
    (hpw : l.Pairwise (fun x y => x.location + x.size < y.location)) : NormalForm l :=
  ⟨hv, hpw.chain'⟩

theorem _sort_of_perm_normalForm {rs N : List IndexRange} (hp : rs.Perm N)
    (hN : NormalForm N) :
    (IndexRangeList._sort { _ranges := rs, _sorted := false })._ranges = N := by
  have hwf : ∀ e ∈ rs, e.WF := fun e he => (hN.1 e (hp.subset he)).wf
  have hs : sortRanges rs = N := (sortRanges_unique hwf hp.symm (normalForm_sorted hN)).symm
  unfold IndexRangeList._sort
  simp only [Bool.not_false, if_true]
  split_ifs with hlen
  · rw [hs]
    cases N with
    | nil => rfl
    | cons first rest => exact mergeLoop_of_normalForm rest first hN
  · simp only
    cases rs with
    | nil => exact hp.nil_eq
    | cons a t =>
      cases t with
      | nil => exact List.singleton_perm.1 hp
      | cons b t => simp at hlen

theorem remove_spec {l : IndexRangeList} (hl : l.Inv) {r : IndexRange} (hr : r.WF)
    (hne : (validate r).empty = false) :
    ∃ l1, l.remove r = some l1 ∧ l1.Inv ∧
      l1.ranges = l.ranges.flatMap (differencePieces (validate r)) := by
  have hw := validate_valid hr hne
  obtain ⟨_, hN, _⟩ := IndexRangeList.inv_sort hl
  have hpw := normalForm_pairwise hN
  obtain ⟨rs, hrs, hperm⟩ := removeLoop_spec hw l._sort._ranges
    (2 * l._sort._ranges.length + 2) false (by omega) hN.1 hpw (fun h => by simp at h)
  obtain ⟨h1, h2, _⟩ := flatMap_differencePieces_spec hw l._sort._ranges hN.1 hpw
  refine ⟨{ _ranges := rs, _sorted := false }, ?_, ?_, ?_⟩
  · unfold IndexRangeList.remove
    simp only [hne, Bool.false_eq_true, if_false, hrs, Option.map_some']
  · exact ⟨fun e he => h1 e (hperm.subset he), fun h => by simp at h⟩
  · unfold IndexRangeList.ranges
    exact _sort_of_perm_normalForm hperm (normalForm_of_pairwise h1 h2)

theorem remove_empty (l : IndexRangeList) {r : IndexRange} (he : (validate r).empty = true) :
    l.remove r = some l := by
  unfold IndexRangeList.remove
  simp only [he, if_true]

/-- C4: for every list built from a vector of ranges `xs` and every range `r`,
`remove(r)` returns, and afterwards some entry of `ranges()` contains an index `p`
if and only if `p` was covered before the call and `validate(r)` does not contain
`p` (exact set difference).  In particular a non-empty removal strictly inside an
entry `e` leaves the low remainder and the high remainder of `e` as two entries. -/
theorem remove_set_difference (xs : List IndexRange) (hxs : ∀ x ∈ xs, x.WF)
    (r : IndexRange) (hr : r.WF) :
    ∃ l, (IndexRangeList.fromVector xs).remove r = some l ∧
      (∀ p, p < MODULUS →
        ((∃ e ∈ l.ranges, e.contains p = true) ↔
          ((∃ e ∈ (IndexRangeList.fromVector xs).ranges, e.contains p = true) ∧
            (validate r).contains p = false))) ∧
      (∀ e ∈ (IndexRangeList.fromVector xs).ranges, (validate r).empty = false →
        e.getMin < (validate r).getMin → (validate r).getMax < e.getMax →
        (⟨e.getMin, (validate r).getMin - e.getMin⟩ : IndexRange) ∈ l.ranges ∧
        (⟨(validate r).getMax, e.getMax - (validate r).getMax⟩ : IndexRange) ∈ l.ranges) := by
  have hl := IndexRangeList.inv_fromVector hxs
  by_cases hne : (validate r).empty = true
  · refine ⟨_, remove_empty _ hne, fun p _ => ?_, fun e _ h => ?_⟩
    · have hc : (validate r).contains p = false := by
        rw [← Bool.not_eq_true]
        intro hc
        rw [contains_nonempty hc] at hne
        exact Bool.false_ne_true hne
      simp only [hc, and_true]
    · rw [hne] at h
      exact absurd h (by simp)
  · have hne1 : (validate r).empty = false := by simpa using hne
    have hw := validate_valid hr hne1
    obtain ⟨l1, h1, _, h3⟩ := remove_spec hl hr hne1
    obtain ⟨_, hN, _⟩ := IndexRangeList.inv_sort hl
    obtain ⟨_, _, h6⟩ := flatMap_differencePieces_spec hw _ hN.1 (normalForm_pairwise hN)
    refine ⟨l1, h1, fun p hp => ?_, fun e he _ hlo hhi => ?_⟩
    · have := h6 p hp
      unfold covers at this
      rw [h3]
      exact this
    · have hev : e.Valid := hN.1 e he
      rw [hw.getMax] at hhi ⊢
      rw [hev.getMax] at hhi ⊢
      unfold IndexRange.getMin at hlo ⊢
      have hmem : ∀ x ∈ differencePieces (validate r) e, x ∈ l1.ranges := by
        intro x hx
        rw [h3, List.mem_flatMap]
        exact ⟨e, he, hx⟩
      have hpieces : differencePieces (validate r) e =
          [⟨e.location, (validate r).location - e.location⟩,
            ⟨(validate r).location + (validate r).size,
              e.location + e.size - ((validate r).location + (validate r).size)⟩] := by
        unfold differencePieces
        rw [if_pos hlo, if_pos hhi]
        have e1 : min (e.location + e.size) (validate r).location = (validate r).location := by
          have := hw.1
          omega
        have e2 : max e.location ((validate r).location + (validate r).size) =
            (validate r).location + (validate r).size := by omega
        rw [e1, e2]
        rfl
      rw [hpieces] at hmem
      exact ⟨hmem _ (by simp), hmem _ (by simp)⟩

theorem remove_set_difference_witness :
    (∀ x ∈ [IndexRange.mk 100 100, IndexRange.mk 600 50], x.WF) ∧
    (IndexRange.mk 125 50).WF ∧
    ∃ l, (IndexRangeList.fromVector [IndexRange.mk 100 100, IndexRange.mk 600 50]).remove
        ⟨125, 50⟩ = some l ∧
      (∀ p, p < MODULUS →
        ((∃ e ∈ l.ranges, e.contains p = true) ↔
          ((∃ e ∈ (IndexRangeList.fromVector
              [IndexRange.mk 100 100, IndexRange.mk 600 50]).ranges, e.contains p = true) ∧
            (validate ⟨125, 50⟩).contains p = false))) ∧
      (∀ e ∈ (IndexRangeList.fromVector [IndexRange.mk 100 100, IndexRange.mk 600 50]).ranges,
        (validate ⟨125, 50⟩).empty = false →
        e.getMin < (validate ⟨125, 50⟩).getMin → (validate ⟨125, 50⟩).getMax < e.getMax →
        (⟨e.getMin, (validate ⟨125, 50⟩).getMin - e.getMin⟩ : IndexRange) ∈ l.ranges ∧
        (⟨(validate ⟨125, 50⟩).getMax, e.getMax - (validate ⟨125, 50⟩).getMax⟩ : IndexRange) ∈
          l.ranges) :=
  ⟨by decide, by decide,
    remove_set_difference [IndexRange.mk 100 100, IndexRange.mk 600 50] (by decide)
      ⟨125, 50⟩ (by decide)⟩

/-! ## `erase` -/

theorem contains_iff_of_no_overflow {x : IndexRange} (h : x.location + x.size < MODULUS)
    {p : Nat} (hp : p < MODULUS) :
    x.contains p = true ↔ x.location ≤ p ∧ p < x.location + x.size := by
  unfold IndexRange.contains usub MODULUS at *
  simp only [ge_iff_le, Bool.and_eq_true, decide_eq_true_eq]
  omega

theorem eraseStep_spec {w e : IndexRange} (hw : w.Valid) (he : e.Valid) :
    (IndexRangeList.eraseStep w e).location + (IndexRangeList.eraseStep w e).size < MODULUS ∧
    ∀ p, p < MODULUS →
      ((IndexRangeList.eraseStep w e).contains p = true ↔
        (e.location ≤ p ∧ p < e.location + e.size ∧ p < w.location) ∨
        (e.location ≤ p + w.size ∧ p + w.size < e.location + e.size ∧
          w.location + w.size ≤ p + w.size)) := by
  have hw1 := hw.1
  have hw2 := hw.2
  have he1 := he.1
  have he2 := he.2
  have key : ∃ a s, IndexRangeList.eraseStep w e = ⟨a, s⟩ ∧ a + s < MODULUS ∧
      ∀ p, (a ≤ p ∧ p < a + s) ↔
        ((e.location ≤ p ∧ p < e.location + e.size ∧ p < w.location) ∨
        (e.location ≤ p + w.size ∧ p + w.size < e.location + e.size ∧
          w.location + w.size ≤ p + w.size)) := by
    unfold IndexRangeList.eraseStep
    rw [hw.getMax, he.getMax]
    unfold IndexRange.getMin
    by_cases h1 : w.location < e.location + e.size
    · rw [if_pos h1]
      by_cases h2 : w.location + w.size ≥ e.location + e.size
      · rw [if_pos h2]
        by_cases h3 : w.location < e.location
        · refine ⟨w.location, 0, ?_, by omega, fun p => by omega⟩
          unfold IndexRange.setMax
          rw [if_pos h3]
        · refine ⟨e.location, w.location - e.location, ?_, by omega, fun p => by omega⟩
          rw [IndexRange.setMax_valid he (by omega) (by omega)]
      · rw [if_neg h2]
        by_cases h3 : w.location ≥ e.location
        · rw [if_pos h3]
          refine ⟨e.location, e.size - w.size, ?_, by omega, fun p => by omega⟩
          unfold usub MODULUS at *
          simp only [IndexRange.mk.injEq, true_and]
          omega
        · rw [if_neg h3]
          by_cases h4 : w.location + w.size ≤ e.location
          · rw [if_pos h4]
            refine ⟨e.location - w.size, e.size, ?_, by omega, fun p => by omega⟩
            unfold usub MODULUS at *
            simp only [IndexRange.mk.injEq, and_true]
            omega
          · rw [if_neg h4, if_pos (by omega), IndexRange.setMin_valid he (by omega)]
            refine ⟨w.location, e.location + e.size - (w.location + w.size), ?_, by omega,
              fun p => by omega⟩
            unfold usub MODULUS at *
            simp only [IndexRange.mk.injEq, and_true]
            omega
    · rw [if_neg h1]
      exact ⟨e.location, e.size, rfl, he2, fun p => by omega⟩
  obtain ⟨a, s, h1, h2, h3⟩ := key
  rw [h1]
  refine ⟨h2, fun p hp => ?_⟩
  rw [contains_iff_of_no_overflow h2 hp]
  exact h3 p

theorem eraseStep_shift {w e : IndexRange} (hw : w.Valid) (he : e.Valid) {p : Nat}
    (hp : p < MODULUS) :
    (IndexRangeList.eraseStep w e).contains p = true ↔
      ∃ q, q < MODULUS ∧ e.contains q = true ∧
        ((q < w.getMin ∧ p = q) ∨ (q ≥ w.getMax ∧ p = q - w.size)) := by
  rw [(eraseStep_spec hw he).2 p hp, hw.getMax]
  unfold IndexRange.getMin
  have hw1 := hw.1
  have he2 := he.2
  constructor
  · rintro (h | h)
    · exact ⟨p, hp, (he.contains_iff hp).2 ⟨h.1, h.2.1⟩, Or.inl ⟨h.2.2, rfl⟩⟩
    · have hq : p + w.size < MODULUS := by omega
      exact ⟨p + w.size, hq, (he.contains_iff hq).2 ⟨h.1, h.2.1⟩, Or.inr ⟨h.2.2, by omega⟩⟩
  · rintro ⟨q, hq, hc, h⟩
    rw [he.contains_iff hq] at hc
    omega

theorem eraseLoop_spec {w : IndexRange} (hw : w.Valid) (R : List IndexRange)
    (hv : ∀ e ∈ R, e.Valid) :
    (∀ x ∈ IndexRangeList.eraseLoop w R, x.Valid) ∧
      ∀ p, p < MODULUS →
        (covers (IndexRangeList.eraseLoop w R) p ↔
          ∃ e ∈ R, (IndexRangeList.eraseStep w e).contains p = true) := by
  induction R with
  | nil =>
    refine ⟨fun x hx => absurd hx (List.not_mem_nil _), fun p _ => ?_⟩
    unfold IndexRangeList.eraseLoop
    simp only [covers_nil, List.not_mem_nil, false_and, exists_false]
  | cons e R ih =>
    obtain ⟨ih1, ih2⟩ := ih (fun f hf => hv f (List.mem_cons_of_mem _ hf))
    have hs := eraseStep_spec hw (hv e (List.mem_cons_self _ _))
    unfold IndexRangeList.eraseLoop
    dsimp only
    split_ifs with h0
    · refine ⟨ih1, fun p hp => ?_⟩
      rw [ih2 p hp]
      have hno : ¬ (IndexRangeList.eraseStep w e).contains p = true := by
        rw [contains_iff_of_no_overflow hs.1 hp]
        omega
      constructor
      · rintro ⟨f, hf, hc⟩
        exact ⟨f, List.mem_cons_of_mem _ hf, hc⟩
      · rintro ⟨f, hf, hc⟩
        rcases List.mem_cons.1 hf with rfl | hf
        · exact absurd hc hno
        · exact ⟨f, hf, hc⟩
    · refine ⟨?_, fun p hp => ?_⟩
      · intro x hx
        rcases List.mem_cons.1 hx with rfl | hx
        · exact ⟨by omega, hs.1⟩
        · exact ih1 x hx
      · rw [covers_cons, ih2 p hp]
        simp only [List.mem_cons, exists_eq_or_imp]

theorem ranges_covers_of_valid {l : IndexRangeList} (hv : ∀ e ∈ l._ranges, e.Valid)
    {p : Nat} (hp : p < MODULUS) : covers l.ranges p ↔ covers l._ranges p := by
  unfold IndexRangeList.ranges
  by_cases hs : l._sorted = true
  · rw [IndexRangeList._sort_of_sorted hs]
  · exact (IndexRangeList._sort_spec hv (by simpa using hs)).2 p hp

theorem erase_covers {l : IndexRangeList} (hv : ∀ e ∈ l._ranges, e.Valid) {r : IndexRange}
    (hr : r.WF) (hne : (validate r).empty = false) {p : Nat} (hp : p < MODULUS) :
    covers (l.erase r).ranges p ↔
      ∃ q, q < MODULUS ∧ covers l.ranges q ∧
        ((q < (validate r).getMin ∧ p = q) ∨
          (q ≥ (validate r).getMax ∧ p = q - (validate r).size)) := by
  have hw := validate_valid hr hne
  obtain ⟨h1, h2⟩ := eraseLoop_spec hw l._ranges hv
  have he : l.erase r =
      { _ranges := IndexRangeList.eraseLoop (validate r) l._ranges, _sorted := l._sorted } := by
    unfold IndexRangeList.erase
    simp only [hne, Bool.false_eq_true, if_false]
  rw [he, ranges_covers_of_valid h1 hp, h2 p hp]
  constructor
  · rintro ⟨e, hmem, hc⟩
    obtain ⟨q, hq, hcq, hcase⟩ := (eraseStep_shift hw (hv e hmem) hp).1 hc
    exact ⟨q, hq, (ranges_covers_of_valid hv hq).2 ⟨e, hmem, hcq⟩, hcase⟩
  · rintro ⟨q, hq, hcov, hcase⟩
    obtain ⟨e, hmem, hcq⟩ := (ranges_covers_of_valid hv hq).1 hcov
    exact ⟨e, hmem, (eraseStep_shift hw (hv e hmem) hp).2 ⟨q, hq, hcq, hcase⟩⟩

/-- C5: for every list built from a vector of ranges `xs`, every range `r` whose
validated form `w = validate(r)` is non-empty, and every index `p`: after
`erase(r)` some entry of `ranges()` contains `p` if and only if there is an index
`q` covered by the list before the call with either `q < w.getMin()` and `p = q`, or
`q >= w.getMax()` and `p = q - w.size`.  Positions inside the window disappear,
positions below it stay, positions at or above its end shift down by `w.size`.  An
entry fully covered by the window is removed: no entry of `ranges()` after the call
is empty, and if the window covers every entry the list is empty afterwards. -/
theorem erase_shifts_coverage (xs : List IndexRange) (hxs : ∀ x ∈ xs, x.WF)
    (r : IndexRange) (hr : r.WF) (hne : (validate r).empty = false) :
    (∀ p, p < MODULUS →
      ((∃ e ∈ ((IndexRangeList.fromVector xs).erase r).ranges, e.contains p = true) ↔
        ∃ q, q < MODULUS ∧
          (∃ e ∈ (IndexRangeList.fromVector xs).ranges, e.contains q = true) ∧
          ((q < (validate r).getMin ∧ p = q) ∨
            (q ≥ (validate r).getMax ∧ p = q - (validate r).size)))) ∧
      (∀ e ∈ ((IndexRangeList.fromVector xs).erase r).ranges,
        e.empty = false ∧ e.overflows = false) ∧
      ((∀ e ∈ (IndexRangeList.fromVector xs).ranges,
          (validate r).getMin ≤ e.getMin ∧ e.getMax ≤ (validate r).getMax) →
        ((IndexRangeList.fromVector xs).erase r).ranges = [] ∧
        ((IndexRangeList.fromVector xs).erase r).size = 0) := by
  have hinv := IndexRangeList.inv_fromVector hxs
  have hw := validate_valid hr hne
  have hcov : ∀ p, p < MODULUS →
      (covers ((IndexRangeList.fromVector xs).erase r).ranges p ↔
        ∃ q, q < MODULUS ∧ covers (IndexRangeList.fromVector xs).ranges q ∧
          ((q < (validate r).getMin ∧ p = q) ∨
            (q ≥ (validate r).getMax ∧ p = q - (validate r).size))) :=
    fun p hp => erase_covers hinv.1 hr hne hp
  have hstate : (IndexRangeList.fromVector xs).erase r =
      { _ranges := IndexRangeList.eraseLoop (validate r) (IndexRangeList.fromVector xs)._ranges,
        _sorted := (IndexRangeList.fromVector xs)._sorted } := by
    unfold IndexRangeList.erase
    simp only [hne, Bool.false_eq_true, if_false]
  have hsorted : (IndexRangeList.fromVector xs)._sorted = false := by
    rw [IndexRangeList.fromVector_eq]
  have hinv2 : ((IndexRangeList.fromVector xs).erase r).Inv := by
    rw [hstate, hsorted]
    exact ⟨(eraseLoop_spec hw _ hinv.1).1, fun h => by simp at h⟩
  have hN : NormalForm ((IndexRangeList.fromVector xs).erase r).ranges :=
    (IndexRangeList.inv_sort hinv2).2.1
  have hN0 : NormalForm (IndexRangeList.fromVector xs).ranges :=
    (IndexRangeList.inv_sort hinv).2.1
  refine ⟨hcov, (normalForm_source hN).1, fun hall => ?_⟩
  have hnil : ((IndexRangeList.fromVector xs).erase r).ranges = [] := by
    cases hres : ((IndexRangeList.fromVector xs).erase r).ranges with
    | nil => rfl
    | cons e1 t =>
      exfalso
      have he1 : e1.Valid := hN.1 e1 (by rw [hres]; exact List.mem_cons_self _ _)
      have hp : e1.location < MODULUS := he1.wf.1
      have hc : covers ((IndexRangeList.fromVector xs).erase r).ranges e1.location :=
        ⟨e1, by rw [hres]; exact List.mem_cons_self _ _,
          (he1.contains_iff hp).2 ⟨Nat.le_refl _, by have := he1.1; omega⟩⟩
      obtain ⟨q, hq, ⟨e, he, hcq⟩, hcase⟩ := (hcov _ hp).1 hc
      have hev := hN0.1 e he
      have hbound := hall e he
      rw [hev.getMax, hw.getMax] at hbound
      rw [hw.getMax] at hcase
      unfold IndexRange.getMin at hbound hcase
      rw [hev.contains_iff hq] at hcq
      omega
  refine ⟨hnil, ?_⟩
  unfold IndexRangeList.size
  unfold IndexRangeList.ranges at hnil
  rw [hnil]
  rfl

theorem erase_shifts_coverage_witness :
    (∀ x ∈ [IndexRange.mk 250 25, IndexRange.mk 260 40], x.WF) ∧
    (IndexRange.mk 200 100).WF ∧ (validate ⟨200, 100⟩).empty = false ∧
    ((∀ p, p < MODULUS →
      ((∃ e ∈ ((IndexRangeList.fromVector [IndexRange.mk 250 25, IndexRange.mk 260 40]).erase
          ⟨200, 100⟩).ranges, e.contains p = true) ↔
        ∃ q, q < MODULUS ∧
          (∃ e ∈ (IndexRangeList.fromVector [IndexRange.mk 250 25, IndexRange.mk 260 40]).ranges,
            e.contains q = true) ∧
          ((q < (validate ⟨200, 100⟩).getMin ∧ p = q) ∨
            (q ≥ (validate ⟨200, 100⟩).getMax ∧ p = q - (validate ⟨200, 100⟩).size)))) ∧
      (∀ e ∈ ((IndexRangeList.fromVector [IndexRange.mk 250 25, IndexRange.mk 260 40]).erase
          ⟨200, 100⟩).ranges,
        e.empty = false ∧ e.overflows = false) ∧
      ((∀ e ∈ (IndexRangeList.fromVector [IndexRange.mk 250 25, IndexRange.mk 260 40]).ranges,
          (validate ⟨200, 100⟩).getMin ≤ e.getMin ∧ e.getMax ≤ (validate ⟨200, 100⟩).getMax) →
        ((IndexRangeList.fromVector [IndexRange.mk 250 25, IndexRange.mk 260 40]).erase
          ⟨200, 100⟩).ranges = [] ∧
        ((IndexRangeList.fromVector [IndexRange.mk 250 25, IndexRange.mk 260 40]).erase
          ⟨200, 100⟩).size = 0)) :=
  ⟨by decide, by decide, by decide,
    erase_shifts_coverage [IndexRange.mk 250 25, IndexRange.mk 260 40] (by decide)
      ⟨200, 100⟩ (by decide) (by decide)⟩

/-! ## `insert` -/

theorem insertLoop_cons (range curr : IndexRange) (rest : List IndexRange) :
    IndexRangeList.insertLoop range (curr :: rest) =
      if (if curr.contains range.location then
            (({ location := curr.location, size := uadd curr.size range.size } : IndexRange),
              false)
          else if curr.location > range.location then
            if uadd curr.location range.size < curr.location then (curr, true)
            else (({ location := uadd curr.location range.size, size := curr.size } : IndexRange),
              false)
          else (curr, false)).2 then
        IndexRangeList.insertLoop range rest
      else
        (if curr.contains range.location then
            (({ location := curr.location, size := uadd curr.size range.size } : IndexRange),
              false)
          else if curr.location > range.location then
            if uadd curr.location range.size < curr.location then (curr, true)
            else (({ location := uadd curr.location range.size, size := curr.size } : IndexRange),
              false)
          else (curr, false)).1.clearOverflow.2 :: IndexRangeList.insertLoop range rest := by
  rfl

theorem insertImage_valid {w e : IndexRange} (he : e.Valid)
    (hfit : e.location + e.size + w.size < MODULUS) : (insertImage w e).Valid := by
  unfold insertImage IndexRange.Valid at *
  split_ifs <;> (try simp only) <;> omega

theorem insertLoop_fit {w : IndexRange} (hw : w.Valid) (R : List IndexRange)
    (hv : ∀ e ∈ R, e.Valid) (hfit : ∀ e ∈ R, e.location + e.size + w.size < MODULUS) :
    IndexRangeList.insertLoop w R = R.map (insertImage w) := by
  induction R with
  | nil => rfl
  | cons e R ih =>
    have he := hv e (List.mem_cons_self _ _)
    have hf := hfit e (List.mem_cons_self _ _)
    have hiv := insertImage_valid he hf
    have hcl := validate_of_valid hiv
    unfold validate at hcl
    rw [insertLoop_cons, List.map_cons,
      ih (fun f hf => hv f (List.mem_cons_of_mem _ hf))
        (fun f hf => hfit f (List.mem_cons_of_mem _ hf))]
    have he1 := he.1
    have hw1 := hw.1
    by_cases hc : e.contains w.location = true
    · have him : insertImage w e = ⟨e.location, e.size + w.size⟩ := by
        unfold insertImage; rw [if_pos hc]
      rw [him] at hcl ⊢
      rw [if_pos hc]
      simp only [Bool.false_eq_true, if_false]
      rw [uadd_eq (by omega), hcl]
    · by_cases hgt : e.location > w.location
      · have him : insertImage w e = ⟨e.location + w.size, e.size⟩ := by
          unfold insertImage; rw [if_neg hc, if_pos hgt]
        have hnw : ¬ uadd e.location w.size < e.location := by
          rw [uadd_eq (by omega)]; omega
        rw [him] at hcl ⊢
        rw [if_neg hc, if_pos hgt, if_neg hnw]
        simp only [Bool.false_eq_true, if_false]
        rw [uadd_eq (by omega), hcl]
      · have him : insertImage w e = e := by
          unfold insertImage; rw [if_neg hc, if_neg hgt]
        rw [him] at hcl ⊢
        rw [if_neg hc, if_neg hgt]
        simp only [Bool.false_eq_true, if_false]
        rw [hcl]

theorem insertImage_normalForm {w : IndexRange} (hw : w.Valid) {R : List IndexRange}
    (hN : NormalForm R) (hfit : ∀ e ∈ R, e.location + e.size + w.size < MODULUS) :
    NormalForm (R.map (insertImage w)) := by
  refine normalForm_of_pairwise ?_ ?_
  · intro x hx
    rw [List.mem_map] at hx
    obtain ⟨e, he, rfl⟩ := hx
    exact insertImage_valid (hN.1 e he) (hfit e he)
  · rw [List.pairwise_map]
    refine (normalForm_pairwise hN).imp_of_mem ?_
    intro a b ha hb hab
    have hav := hN.1 a ha
    have hbv := hN.1 b hb
    have hca := hav.contains_iff hw.wf.1
    have hcb := hbv.contains_iff hw.wf.1
    have ha1 := hav.1
    have hb1 := hbv.1
    unfold insertImage
    simp only [hca, hcb]
    split_ifs <;> (try simp only) <;> omega

theorem insert_fit {l : IndexRangeList} (hR : NormalForm l.ranges) {w : IndexRange}
    (hw : w.Valid) (hfit : ∀ e ∈ l.ranges, e.location + e.size + w.size < MODULUS) :
    (l.insert w).ranges = l.ranges.map (insertImage w) := by
  have hne : (validate w).empty = false := by
    rw [validate_of_valid hw]
    exact ((IndexRange.valid_iff hw.wf).1 hw).1
  unfold IndexRangeList.insert
  simp only [hne, Bool.false_eq_true, if_false]
  rw [validate_of_valid hw]
  unfold IndexRangeList.ranges at hR hfit ⊢
  rw [insertLoop_fit hw _ hR.1 hfit]
  rw [IndexRangeList._sort_of_normalForm (insertImage_normalForm hw hR hfit)]

/-- What `insert` does on a list state whose `ranges()` is in normal form, for a
non-empty, non-overflowing range `r` with `e.getMax() + r.size <= MAX` (exact
arithmetic) for every entry `e`: `ranges()` after `insert(r)` has as many entries,
in the same order, where the entry `e` has become `e` itself if
`e.getMax() <= r.location`, `{e.location, e.size + r.size}` if `e` contains
`r.location`, and `{e.location + r.size, e.size}` if `e.location > r.location`. -/
theorem insert_shifts_entries_of_normalForm (l : IndexRangeList) (hR : NormalForm l.ranges)
    (r : IndexRange) (hr : r.WF) (hne : r.empty = false) (hno : r.overflows = false)
    (hfit : ∀ e ∈ l.ranges, e.getMax + r.size ≤ IndexRange.MAX) :
    List.Forall₂
      (fun e e1 =>
        (e.getMax ≤ r.location → e1 = e) ∧
        (e.contains r.location = true → e1 = ⟨e.location, e.size + r.size⟩) ∧
        (e.location > r.location → e1 = ⟨e.location + r.size, e.size⟩))
      l.ranges (l.insert r).ranges := by
  have hw : r.Valid := (IndexRange.valid_iff hr).2 ⟨hne, hno⟩
  have hfit1 : ∀ e ∈ l.ranges, e.location + e.size + r.size < MODULUS := by
    intro e he
    have h := hfit e he
    rw [(hR.1 e he).getMax] at h
    unfold IndexRange.MAX at h
    unfold MODULUS
    omega
  rw [insert_fit hR hw hfit1, List.forall₂_map_right_iff, List.forall₂_same]
  intro e he
  have hev := hR.1 e he
  have hc := hev.contains_iff hr.1
  have he1 := hev.1
  rw [hev.getMax]
  unfold insertImage
  refine ⟨fun h => ?_, fun h => ?_, fun h => ?_⟩
  · rw [if_neg (by rw [hc]; omega), if_neg (by omega)]
  · rw [if_pos h]
  · rw [if_neg (by rw [hc]; omega), if_pos h]

theorem insert_shifts_entries_of_normalForm_example :
    NormalForm (IndexRangeList.fromVector [IndexRange.mk 1 2, IndexRange.mk 4 8]).ranges ∧
    (IndexRange.mk 5 3).WF ∧ (IndexRange.mk 5 3).empty = false ∧
    (IndexRange.mk 5 3).overflows = false ∧
    (∀ e ∈ (IndexRangeList.fromVector [IndexRange.mk 1 2, IndexRange.mk 4 8]).ranges,
      e.getMax + (IndexRange.mk 5 3).size ≤ IndexRange.MAX) ∧
    List.Forall₂
      (fun e e1 =>
        (e.getMax ≤ (IndexRange.mk 5 3).location → e1 = e) ∧
        (e.contains (IndexRange.mk 5 3).location = true →
          e1 = ⟨e.location, e.size + (IndexRange.mk 5 3).size⟩) ∧
        (e.location > (IndexRange.mk 5 3).location →
          e1 = ⟨e.location + (IndexRange.mk 5 3).size, e.size⟩))
      (IndexRangeList.fromVector [IndexRange.mk 1 2, IndexRange.mk 4 8]).ranges
      ((IndexRangeList.fromVector [IndexRange.mk 1 2, IndexRange.mk 4 8]).insert ⟨5, 3⟩).ranges :=
  ⟨(IndexRangeList.inv_sort (IndexRangeList.inv_fromVector (by decide))).2.1,
    by decide, by decide, by decide, by decide,
    insert_shifts_entries_of_normalForm
      (IndexRangeList.fromVector [IndexRange.mk 1 2, IndexRange.mk 4 8])
      (IndexRangeList.inv_sort (IndexRangeList.inv_fromVector (by decide))).2.1
      ⟨5, 3⟩ (by decide) (by decide) (by decide) (by decide)⟩

theorem insertLoop_all_out {w : IndexRange} (R : List IndexRange)
    (h : ∀ e ∈ R, e.WF ∧ w.location < e.location ∧ MODULUS ≤ e.location + w.size)
    (hw : w.size < MODULUS) : IndexRangeList.insertLoop w R = [] := by
  induction R with
  | nil => rfl
  | cons e R ih =>
    obtain ⟨he, hlt, hge⟩ := h e (List.mem_cons_self _ _)
    have hc : ¬ e.contains w.location = true := by
      unfold IndexRange.contains
      simp only [ge_iff_le, Bool.and_eq_true, decide_eq_true_eq]
      omega
    have hov : uadd e.location w.size < e.location := by
      unfold IndexRange.WF at he
      unfold uadd MODULUS at *
      omega
    rw [insertLoop_cons, if_neg hc, if_pos hlt, if_pos hov, if_pos rfl]
    exact ih (fun f hf => h f (List.mem_cons_of_mem _ hf))

/-- C8: for every list built from a vector of ranges `xs`, every location `p` and
every size `n >= 1` with `p + n <= MAX`: if every entry `e` of the list starts
strictly above `p` and `e.location + n` exceeds `MAX` in exact arithmetic, then after
`insert({p, n})` the list is empty (`size() == 0` and `ranges()` is empty). -/
theorem insert_pushes_all_out (xs : List IndexRange) (hxs : ∀ x ∈ xs, x.WF) (p n : Nat)
    (hn : 1 ≤ n) (hpn : p + n ≤ IndexRange.MAX)
    (h : ∀ e ∈ (IndexRangeList.fromVector xs).ranges,
      p < e.location ∧ IndexRange.MAX < e.location + n) :
    ((IndexRangeList.fromVector xs).insert ⟨p, n⟩).size = 0 ∧
      ((IndexRangeList.fromVector xs).insert ⟨p, n⟩).ranges = [] := by
  have hw : (IndexRange.mk p n).Valid := by
    unfold IndexRange.Valid IndexRange.MAX MODULUS at *
    simp only
    omega
  have hne : (validate ⟨p, n⟩).empty = false := by
    rw [validate_of_valid hw]
    exact ((IndexRange.valid_iff hw.wf).1 hw).1
  obtain ⟨_, hN, _⟩ := IndexRangeList.inv_sort (IndexRangeList.inv_fromVector hxs)
  have hloop : IndexRangeList.insertLoop ⟨p, n⟩ (IndexRangeList.fromVector xs)._sort._ranges =
      [] := by
    refine insertLoop_all_out _ (fun e he => ?_) hw.wf.2
    have h1 := h e he
    unfold IndexRange.MAX at h1
    unfold MODULUS
    exact ⟨(hN.1 e he).wf, h1.1, by simp only; omega⟩
  have hins : (IndexRangeList.fromVector xs).insert ⟨p, n⟩ =
      { _ranges := [], _sorted := false } := by
    unfold IndexRangeList.insert
    simp only [hne, Bool.false_eq_true, if_false]
    rw [validate_of_valid hw, hloop]
  rw [hins]
  exact ⟨rfl, rfl⟩

theorem insert_pushes_all_out_witness :
    (∀ x ∈ [IndexRange.mk 101 5, IndexRange.mk 107 9], x.WF) ∧ 1 ≤ IndexRange.MAX ∧
    0 + IndexRange.MAX ≤ IndexRange.MAX ∧
    (∀ e ∈ (IndexRangeList.fromVector [IndexRange.mk 101 5, IndexRange.mk 107 9]).ranges,
      0 < e.location ∧ IndexRange.MAX < e.location + IndexRange.MAX) ∧
    ((IndexRangeList.fromVector [IndexRange.mk 101 5, IndexRange.mk 107 9]).insert
        ⟨0, IndexRange.MAX⟩).size = 0 ∧
      ((IndexRangeList.fromVector [IndexRange.mk 101 5, IndexRange.mk 107 9]).insert
        ⟨0, IndexRange.MAX⟩).ranges = [] :=
  ⟨by decide, by decide, by decide, by decide,
    insert_pushes_all_out [IndexRange.mk 101 5, IndexRange.mk 107 9] (by decide) 0
      IndexRange.MAX (by decide) (by decide) (by decide)⟩

/-- C7 (the code at the failing input): the list `[{0, 3}]` holds an entry that
contains the location `1`; after `insert({1, MAX - 1})` the entry at location `0`
has size `1`.  The sum `3 + (MAX - 1)` wrapped in `curr.size += range.size`, so the
size is neither `e.size + w.size` nor `MAX - e.location`, and it has decreased. -/
theorem insert_size_wraps :
    (IndexRangeList.fromVector [⟨0, 3⟩]).ranges = [⟨0, 3⟩] ∧
    (IndexRange.mk 0 3).contains (validate ⟨1, IndexRange.MAX - 1⟩).location = true ∧
    (validate ⟨1, IndexRange.MAX - 1⟩) = ⟨1, IndexRange.MAX - 1⟩ ∧
    IndexRange.MAX < 0 + 3 + (IndexRange.MAX - 1) ∧
    ((IndexRangeList.fromVector [⟨0, 3⟩]).insert ⟨1, IndexRange.MAX - 1⟩).ranges = [⟨0, 1⟩] := by
  decide

/-- C9 (the code at the failing input): after `add({0,1})`, `add({5,1})`,
`ranges()`, `erase({1,4})` the next `ranges()` returns `[{0,1}, {1,1}]`: the end of
the first entry equals the start of the second, so two adjacent entries are
returned unmerged.  `erase` leaves `_sorted` set, so `_sort` does nothing. -/
theorem erase_leaves_adjacent_entries :
    ∃ l, Call.run {} [Call.add ⟨0, 1⟩, Call.add ⟨5, 1⟩, Call.ranges, Call.erase ⟨1, 4⟩] =
        some l ∧
      l._sorted = true ∧
      l.ranges = [⟨0, 1⟩, ⟨1, 1⟩] ∧
      (IndexRange.mk 0 1).getMax = (IndexRange.mk 1 1).getMin ∧
      (IndexRange.mk 0 1).isAdjacentTo ⟨1, 1⟩ = true :=
  ⟨_, rfl, by decide⟩

/-- C10 (the code at the failing input): after `add({5,1})` and
`insert({0, MAX - 5})` the vector returned by `ranges()` is `[{MAX, 0}]`: the entry
was moved to location `MAX`, truncated to size `0` by `clearOverflow`, and kept. -/
theorem insert_leaves_empty_entry :
    ∃ l, Call.run {} [Call.add ⟨5, 1⟩, Call.insert ⟨0, IndexRange.MAX - 5⟩] = some l ∧
      l.ranges = [⟨IndexRange.MAX, 0⟩] ∧
      (IndexRange.mk IndexRange.MAX 0).empty = true :=
  ⟨_, rfl, by decide⟩

/-! ## Erasing inside a single entry -/

theorem fromVector_singleton {e : IndexRange} (he : e.Valid) :
    IndexRangeList.fromVector [e] = { _ranges := [e], _sorted := false } := by
  rw [IndexRangeList.fromVector_eq]
  have hne : e.empty = false := ((IndexRange.valid_iff he.wf).1 he).1
  simp only [List.map_cons, List.map_nil, validate_of_valid he, List.filter_cons, hne,
    Bool.not_false, if_true, List.filter_nil]

theorem ranges_singleton (a : IndexRange) (s : Bool) :
    IndexRangeList.ranges { _ranges := [a], _sorted := s } = [a] := by
  unfold IndexRangeList.ranges IndexRangeList._sort
  cases s <;> rfl

/-- C11 (as amended): for a list holding the single non-overflowing entry `e` and
every non-empty, non-overflowing window `r` lying strictly inside `e`
(`e.getMin() < r.getMin()` and `r.getMax() < e.getMax()`), after `erase(r)` the
vector `ranges()` has exactly one entry, `{e.location, e.size - r.size}`: the entry
shrinks by the erased size and is not split. -/
theorem erase_inside_shrinks (e r : IndexRange) (he : e.WF) (hr : r.WF)
    (heo : e.overflows = false) (hrne : r.empty = false) (hro : r.overflows = false)
    (hlo : e.getMin < r.getMin) (hhi : r.getMax < e.getMax) :
    ((IndexRangeList.fromVector [e]).erase r).ranges = [⟨e.location, e.size - r.size⟩] := by
  have hrv : r.Valid := (IndexRange.valid_iff hr).2 ⟨hrne, hro⟩
  have hev : e.Valid := by
    refine (IndexRange.valid_iff he).2 ⟨?_, heo⟩
    unfold IndexRange.overflows at heo
    unfold IndexRange.getMin at hlo
    rw [hrv.getMax] at hhi
    unfold IndexRange.getMax at hhi
    have hr1 := hrv.1
    unfold IndexRange.WF at he
    unfold IndexRange.empty uadd MODULUS at *
    simp only [decide_eq_false_iff_not, not_lt] at *
    omega
  rw [hrv.getMax, hev.getMax] at hhi
  unfold IndexRange.getMin at hlo
  have hr1 := hrv.1
  have hr2 := hrv.2
  have he2 := hev.2
  have hstep : IndexRangeList.eraseStep r e = ⟨e.location, e.size - r.size⟩ := by
    unfold IndexRangeList.eraseStep
    rw [hrv.getMax, hev.getMax]
    unfold IndexRange.getMin
    rw [if_pos (by omega), if_neg (by omega), if_pos (by omega)]
    unfold usub MODULUS at *
    simp only [IndexRange.mk.injEq, true_and]
    omega
  have hne : (validate r).empty = false := by rw [validate_of_valid hrv]; exact hrne
  rw [fromVector_singleton hev]
  unfold IndexRangeList.erase
  simp only [hne, Bool.false_eq_true, if_false]
  rw [validate_of_valid hrv]
  unfold IndexRangeList.eraseLoop IndexRangeList.eraseLoop
  simp only [hstep]
  rw [if_neg (by omega)]
  exact ranges_singleton _ _

theorem erase_inside_shrinks_witness :
    (IndexRange.mk 100 350).WF ∧ (IndexRange.mk 200 100).WF ∧
    (IndexRange.mk 100 350).overflows = false ∧ (IndexRange.mk 200 100).empty = false ∧
    (IndexRange.mk 200 100).overflows = false ∧
    (IndexRange.mk 100 350).getMin < (IndexRange.mk 200 100).getMin ∧
    (IndexRange.mk 200 100).getMax < (IndexRange.mk 100 350).getMax ∧
    ((IndexRangeList.fromVector [IndexRange.mk 100 350]).erase ⟨200, 100⟩).ranges =
      [⟨(IndexRange.mk 100 350).location,
        (IndexRange.mk 100 350).size - (IndexRange.mk 200 100).size⟩] :=
  ⟨by decide, by decide, by decide, by decide, by decide, by decide, by decide,
    erase_inside_shrinks ⟨100, 350⟩ ⟨200, 100⟩ (by decide) (by decide) (by decide) (by decide)
      (by decide) (by decide) (by decide)⟩

/-- C11 (counterexample to the claim as stated): the list holding the single
entry `{100, 350}` and the window `{200, 100}` strictly inside it; after the erase
`ranges()` is `[{100, 250}]`, one entry and not two. -/
theorem erase_inside_not_two_entries :
    (IndexRange.mk 100 350).overflows = false ∧ (IndexRange.mk 200 100).empty = false ∧
    (IndexRange.mk 200 100).overflows = false ∧
    (IndexRange.mk 100 350).getMin < (IndexRange.mk 200 100).getMin ∧
    (IndexRange.mk 200 100).getMax < (IndexRange.mk 100 350).getMax ∧
    ((IndexRangeList.fromVector [IndexRange.mk 100 350]).erase ⟨200, 100⟩).ranges =
      [⟨100, 250⟩] ∧
    ((IndexRangeList.fromVector [IndexRange.mk 100 350]).erase ⟨200, 100⟩).ranges.length ≠ 2 := by
  decide

/-! ## Empty arguments -/

theorem mergeLoop_ne_nil (rest : List IndexRange) :
    ∀ last : IndexRange, mergeLoop last rest ≠ [] := by
  induction rest with
  | nil => intro last; simp [mergeLoop]
  | cons curr rest ih =>
    intro last
    unfold mergeLoop
    dsimp only
    split_ifs
    · exact ih _
    · exact List.cons_ne_nil _ _

theorem ranges_eq_nil {l : IndexRangeList} (h : l.ranges = []) : l._ranges = [] := by
  unfold IndexRangeList.ranges IndexRangeList._sort at h
  split_ifs at h with h1 h2
  · split at h
    · next heq =>
      have hp := sortRanges_perm l._ranges
      rw [heq] at hp
      exact hp.symm.eq_nil
    · next first rest heq => exact absurd h (mergeLoop_ne_nil rest first)
  · exact h
  · exact h

theorem ranges_of_nil (s : Bool) : IndexRangeList.ranges { _ranges := [], _sorted := s } = [] := by
  unfold IndexRangeList.ranges IndexRangeList._sort
  cases s <;> rfl

/-- C12: for each of the mutators `add`, `remove`, `insert` and `erase`, every
list state `l` and every range `r` whose validated form is empty
(`validate(r).size == 0`), calling the mutator with `r` leaves `ranges()` exactly as
it was (and `remove` returns); and `erase(r0)` on an empty list `l0` leaves it empty
for every `r0`. -/
theorem empty_argument_noop (l : IndexRangeList) (r : IndexRange)
    (h : (validate r).size = 0) (l0 : IndexRangeList) (r0 : IndexRange)
    (h0 : l0.ranges = []) :
    (l.add r).ranges = l.ranges ∧
      (∃ l1, l.remove r = some l1 ∧ l1.ranges = l.ranges) ∧
      (l.insert r).ranges = l.ranges ∧
      (l.erase r).ranges = l.ranges ∧
      (l0.erase r0).ranges = [] := by
  have he : (validate r).empty = true := by
    unfold IndexRange.empty
    rw [h]
    rfl
  refine ⟨?_, ⟨l, remove_empty l he, rfl⟩, ?_, ?_, ?_⟩
  · unfold IndexRangeList.add
    simp only [he, if_true]
  · unfold IndexRangeList.insert
    simp only [he, if_true]
  · unfold IndexRangeList.erase
    simp only [he, if_true]
  · have hnil := ranges_eq_nil h0
    unfold IndexRangeList.erase
    dsimp only
    split_ifs
    · exact h0
    · rw [hnil]
      exact ranges_of_nil _

theorem empty_argument_noop_witness :
    (validate ⟨IndexRange.MAX, IndexRange.MAX⟩).size = 0 ∧
    (IndexRangeList.fromVector []).ranges = [] ∧
    ((IndexRangeList.fromVector [IndexRange.mk 0 1, IndexRange.mk 7 2]).add
        ⟨IndexRange.MAX, IndexRange.MAX⟩).ranges =
      (IndexRangeList.fromVector [IndexRange.mk 0 1, IndexRange.mk 7 2]).ranges ∧
    (∃ l1, (IndexRangeList.fromVector [IndexRange.mk 0 1, IndexRange.mk 7 2]).remove
        ⟨IndexRange.MAX, IndexRange.MAX⟩ = some l1 ∧
      l1.ranges = (IndexRangeList.fromVector [IndexRange.mk 0 1, IndexRange.mk 7 2]).ranges) ∧
    ((IndexRangeList.fromVector [IndexRange.mk 0 1, IndexRange.mk 7 2]).insert
        ⟨IndexRange.MAX, IndexRange.MAX⟩).ranges =
      (IndexRangeList.fromVector [IndexRange.mk 0 1, IndexRange.mk 7 2]).ranges ∧
    ((IndexRangeList.fromVector [IndexRange.mk 0 1, IndexRange.mk 7 2]).erase
        ⟨IndexRange.MAX, IndexRange.MAX⟩).ranges =
      (IndexRangeList.fromVector [IndexRange.mk 0 1, IndexRange.mk 7 2]).ranges ∧
    ((IndexRangeList.fromVector []).erase ⟨0, 1⟩).ranges = [] :=
  ⟨by decide, by decide,
    empty_argument_noop (IndexRangeList.fromVector [IndexRange.mk 0 1, IndexRange.mk 7 2])
      ⟨IndexRange.MAX, IndexRange.MAX⟩ (by decide) (IndexRangeList.fromVector []) ⟨0, 1⟩ (by decide)⟩

/-! ## Overflow and `clearOverflow` -/

/-- C13: for every range `a` (arithmetic modulo `2^64`, `MAX = 2^64 - 1`), if `r`
is the value returned by `a.clearOverflow()` and `a1` the receiver afterwards, then
`r.location == 0`, `r.overflows()` is false, `a1.overflows()` is false,
`a1.location == a.location`, and `r.size + a1.size == a.size`, both in exact
arithmetic and in `std::size_t` arithmetic (the sum does not wrap). -/
theorem clearOverflow_remainder (a : IndexRange) (ha : a.WF) :
    a.clearOverflow.1.location = 0 ∧
      a.clearOverflow.1.overflows = false ∧
      a.clearOverflow.2.overflows = false ∧
      a.clearOverflow.2.location = a.location ∧
      a.clearOverflow.1.size + a.clearOverflow.2.size = a.size ∧
      uadd a.clearOverflow.1.size a.clearOverflow.2.size = a.size := by
  unfold IndexRange.WF at ha
  unfold IndexRange.clearOverflow IndexRange.overflows
  dsimp only
  unfold uadd usub IndexRange.MAX MODULUS at *
  split_ifs with h
  · simp only [decide_eq_false_iff_not, not_lt, true_and]
    omega
  · simp only [decide_eq_false_iff_not, not_lt, true_and]
    omega

theorem clearOverflow_remainder_witness :
    (IndexRange.mk 3 IndexRange.MAX).WF ∧
    (IndexRange.mk 3 IndexRange.MAX).clearOverflow.1.location = 0 ∧
      (IndexRange.mk 3 IndexRange.MAX).clearOverflow.1.overflows = false ∧
      (IndexRange.mk 3 IndexRange.MAX).clearOverflow.2.overflows = false ∧
      (IndexRange.mk 3 IndexRange.MAX).clearOverflow.2.location =
        (IndexRange.mk 3 IndexRange.MAX).location ∧
      (IndexRange.mk 3 IndexRange.MAX).clearOverflow.1.size +
        (IndexRange.mk 3 IndexRange.MAX).clearOverflow.2.size =
        (IndexRange.mk 3 IndexRange.MAX).size ∧
      uadd (IndexRange.mk 3 IndexRange.MAX).clearOverflow.1.size
        (IndexRange.mk 3 IndexRange.MAX).clearOverflow.2.size =
        (IndexRange.mk 3 IndexRange.MAX).size :=
  ⟨by decide, clearOverflow_remainder ⟨3, IndexRange.MAX⟩ (by decide)⟩

theorem validate_exact {a : IndexRange} (ha : a.WF) :
    (validate a).location + (validate a).size < MODULUS := by
  rw [validate_eq_of_wf ha]
  unfold IndexRange.WF IndexRange.MAX MODULUS at *
  split_ifs with h
  · exact h
  · simp only
    omega

theorem validate_not_overflows {a : IndexRange} (ha : a.WF) :
    (validate a).overflows = false := by
  unfold IndexRange.overflows
  rw [uadd_eq (validate_exact ha)]
  simp only [decide_eq_false_iff_not, not_lt]
  omega

/-- C14: for every range `a` that does not overflow, `a.clearOverflow()` returns
`{0,0}` and leaves `a` unchanged, so `validate(a) == a`; and for every range `a`
whatsoever, `validate(a)` does not overflow and
`validate(validate(a)) == validate(a)`. -/
theorem validate_idempotent (a : IndexRange) (ha : a.WF) :
    (a.overflows = false → a.clearOverflow = (⟨0, 0⟩, a) ∧ validate a = a) ∧
      (validate a).overflows = false ∧
      validate (validate a) = validate a := by
  have hfix : ∀ x : IndexRange, x.overflows = false →
      x.clearOverflow = (⟨0, 0⟩, x) ∧ validate x = x := by
    intro x hx
    unfold IndexRange.overflows at hx
    have hx1 : ¬ uadd x.location x.size < x.location := by simpa using hx
    unfold validate IndexRange.clearOverflow
    dsimp only
    rw [if_neg hx1]
    exact ⟨rfl, rfl⟩
  have hno : (validate a).overflows = false := validate_not_overflows ha
  exact ⟨hfix a, hno, (hfix _ hno).2⟩

theorem validate_idempotent_witness :
    (IndexRange.mk 3 IndexRange.MAX).WF ∧
    ((IndexRange.mk 3 IndexRange.MAX).overflows = false →
      (IndexRange.mk 3 IndexRange.MAX).clearOverflow = (⟨0, 0⟩, ⟨3, IndexRange.MAX⟩) ∧
      validate ⟨3, IndexRange.MAX⟩ = ⟨3, IndexRange.MAX⟩) ∧
    (validate ⟨3, IndexRange.MAX⟩).overflows = false ∧
    validate (validate ⟨3, IndexRange.MAX⟩) = validate ⟨3, IndexRange.MAX⟩ :=
  ⟨by decide, validate_idempotent ⟨3, IndexRange.MAX⟩ (by decide)⟩

/-- C15: for every range `a`, `a.overflows()` is true if and only if
`a.location + a.size`, computed in exact arithmetic, is greater than `MAX`;
equivalently if and only if `getMax() < getMin()`. -/
theorem overflows_iff_exceeds_max (a : IndexRange) (ha : a.WF) :
    (a.overflows = true ↔ IndexRange.MAX < a.location + a.size) ∧
      (a.overflows = true ↔ a.getMax < a.getMin) := by
  unfold IndexRange.WF at ha
  unfold IndexRange.overflows IndexRange.getMax IndexRange.getMin
  simp only [decide_eq_true_eq, and_true]
  unfold uadd IndexRange.MAX MODULUS at *
  omega

theorem overflows_iff_exceeds_max_witness :
    (IndexRange.mk 1 IndexRange.MAX).WF ∧
    (((IndexRange.mk 1 IndexRange.MAX).overflows = true ↔
        IndexRange.MAX < (IndexRange.mk 1 IndexRange.MAX).location +
          (IndexRange.mk 1 IndexRange.MAX).size) ∧
      ((IndexRange.mk 1 IndexRange.MAX).overflows = true ↔
        (IndexRange.mk 1 IndexRange.MAX).getMax < (IndexRange.mk 1 IndexRange.MAX).getMin)) :=
  ⟨by decide, overflows_iff_exceeds_max ⟨1, IndexRange.MAX⟩ (by decide)⟩

/-! ## The order `operator<` is strict and total -/

theorem eq_iff (a b : IndexRange) : a.eq b = true ↔ a = b := by
  unfold IndexRange.eq
  cases a
  cases b
  simp only [Bool.and_eq_true, decide_eq_true_eq, IndexRange.mk.injEq]

/-- C18: `operator<` is a strict total order over all ranges, overflowing ones
included: for all `a`, `b` exactly one of `a < b`, `a == b`, `b < a` holds, and for
all `a`, `b`, `c`, `a < b` and `b < c` imply `a < c`. -/
theorem lt_strict_total_order (a b c : IndexRange) (ha : a.WF) (hb : b.WF) :
    ((a.lt b = true ∧ a.eq b = false ∧ b.lt a = false) ∨
      (a.lt b = false ∧ a.eq b = true ∧ b.lt a = false) ∨
      (a.lt b = false ∧ a.eq b = false ∧ b.lt a = true)) ∧
      (a.lt b = true → b.lt c = true → a.lt c = true) := by
  constructor
  · by_cases h1 : a.lt b = true
    · have h2 := IndexRange.lt_asymm h1
      refine Or.inl ⟨h1, ?_, h2⟩
      rw [← Bool.not_eq_true, eq_iff]
      intro hab
      rw [hab] at h1
      rw [hab, h1] at h2
      exact Bool.noConfusion h2
    · have h1f : a.lt b = false := by simpa using h1
      by_cases h2 : b.lt a = true
      · refine Or.inr (Or.inr ⟨h1f, ?_, h2⟩)
        rw [← Bool.not_eq_true, eq_iff]
        intro hab
        rw [hab] at h1f
        rw [hab, h1f] at h2
        exact Bool.noConfusion h2
      · have h2f : b.lt a = false := by simpa using h2
        exact Or.inr (Or.inl ⟨h1f, (eq_iff a b).2 (IndexRange.eq_of_not_lt ha hb h2f h1f), h2f⟩)
  · intro h1 h2
    rw [IndexRange.lt_iff] at *
    omega

theorem lt_strict_total_order_witness :
    (IndexRange.mk 2 IndexRange.MAX).WF ∧ (IndexRange.mk 2 1).WF ∧
    ((((IndexRange.mk 2 IndexRange.MAX).lt ⟨2, 1⟩ = true ∧
        (IndexRange.mk 2 IndexRange.MAX).eq ⟨2, 1⟩ = false ∧
        (IndexRange.mk 2 1).lt ⟨2, IndexRange.MAX⟩ = false) ∨
      ((IndexRange.mk 2 IndexRange.MAX).lt ⟨2, 1⟩ = false ∧
        (IndexRange.mk 2 IndexRange.MAX).eq ⟨2, 1⟩ = true ∧
        (IndexRange.mk 2 1).lt ⟨2, IndexRange.MAX⟩ = false) ∨
      ((IndexRange.mk 2 IndexRange.MAX).lt ⟨2, 1⟩ = false ∧
        (IndexRange.mk 2 IndexRange.MAX).eq ⟨2, 1⟩ = false ∧
        (IndexRange.mk 2 1).lt ⟨2, IndexRange.MAX⟩ = true)) ∧
      ((IndexRange.mk 2 IndexRange.MAX).lt ⟨2, 1⟩ = true →
        (IndexRange.mk 2 1).lt ⟨3, 0⟩ = true →
        (IndexRange.mk 2 IndexRange.MAX).lt ⟨3, 0⟩ = true)) :=
  ⟨by decide, by decide,
    lt_strict_total_order ⟨2, IndexRange.MAX⟩ ⟨2, 1⟩ ⟨3, 0⟩ (by decide) (by decide)⟩

/-! ## `mergeWith` -/

/-- C16 (counterexample to the claim as stated): the two empty ranges `{0,0}` and
`{0,0}` are adjacent, yet their merge `{0,0}` is empty, so
`a.mergeWith(b).empty()` is `true` while `!(a.intersects(b) || a.isAdjacentTo(b))`
is `false`. -/
theorem mergeWith_empty_of_adjacent_empties :
    ((IndexRange.mk 0 0).mergeWith ⟨0, 0⟩).empty = true ∧
    (IndexRange.mk 0 0).isAdjacentTo ⟨0, 0⟩ = true ∧
    ¬ (((IndexRange.mk 0 0).mergeWith ⟨0, 0⟩).empty =
      !((IndexRange.mk 0 0).intersects ⟨0, 0⟩ || (IndexRange.mk 0 0).isAdjacentTo ⟨0, 0⟩)) := by
  decide

/-- C16 (as amended): for all ranges `a` and `b`, `a.mergeWith(b)` is empty
whenever the two neither intersect nor are adjacent; and for all non-overflowing
`a` and `b` of which at least one is non-empty,
`a.mergeWith(b).empty() == !(a.intersects(b) || a.isAdjacentTo(b))`. -/
theorem mergeWith_empty_iff (a b : IndexRange) (ha : a.WF) (hb : b.WF) :
    ((a.intersects b || a.isAdjacentTo b) = false → (a.mergeWith b).empty = true) ∧
      (a.overflows = false → b.overflows = false → (a.empty = false ∨ b.empty = false) →
        (a.mergeWith b).empty = !(a.intersects b || a.isAdjacentTo b)) := by
  constructor
  · intro h
    unfold IndexRange.mergeWith
    rw [h]
    rfl
  · intro hao hbo hne
    unfold IndexRange.mergeWith
    cases hc : (a.intersects b || a.isAdjacentTo b) with
    | false => rfl
    | true =>
      simp only [if_true, Bool.not_true]
      unfold IndexRange.WF at ha hb
      unfold IndexRange.overflows at hao hbo
      unfold IndexRange.empty at hne ⊢
      unfold IndexRange.unionWith IndexRange.getMax
      unfold uadd usub MODULUS at *
      simp only [decide_eq_false_iff_not, not_lt] at *
      omega

theorem mergeWith_empty_iff_witness :
    (IndexRange.mk 1 1).WF ∧ (IndexRange.mk 2 1).WF ∧
    ((((IndexRange.mk 1 1).intersects ⟨2, 1⟩ || (IndexRange.mk 1 1).isAdjacentTo ⟨2, 1⟩) = false →
        ((IndexRange.mk 1 1).mergeWith ⟨2, 1⟩).empty = true) ∧
      ((IndexRange.mk 1 1).overflows = false → (IndexRange.mk 2 1).overflows = false →
        ((IndexRange.mk 1 1).empty = false ∨ (IndexRange.mk 2 1).empty = false) →
        ((IndexRange.mk 1 1).mergeWith ⟨2, 1⟩).empty =
          !((IndexRange.mk 1 1).intersects ⟨2, 1⟩ || (IndexRange.mk 1 1).isAdjacentTo ⟨2, 1⟩))) :=
  ⟨by decide, by decide, mergeWith_empty_iff ⟨1, 1⟩ ⟨2, 1⟩ (by decide) (by decide)⟩

/-- C17: for all non-overflowing ranges `a` and `b` with `a.intersects(b)` or
`a.isAdjacentTo(b)`, the range `m = a.mergeWith(b)` does not overflow and, for every
index `p`, `m.contains(p)` if and only if `a.contains(p)` or `b.contains(p)`: a
permitted merge covers exactly the union. -/
theorem mergeWith_covers_union (a b : IndexRange) (ha : a.WF) (hb : b.WF)
    (hao : a.overflows = false) (hbo : b.overflows = false)
    (hm : (a.intersects b || a.isAdjacentTo b) = true) (p : Nat) (hp : p < MODULUS) :
    (a.mergeWith b).overflows = false ∧
      ((a.mergeWith b).contains p = true ↔ a.contains p = true ∨ b.contains p = true) := by
  have ha2 : a.location + a.size < MODULUS := by
    unfold IndexRange.WF at ha
    unfold IndexRange.overflows uadd at hao
    unfold MODULUS at *
    simp only [decide_eq_false_iff_not, not_lt] at hao
    omega
  have hb2 : b.location + b.size < MODULUS := by
    unfold IndexRange.WF at hb
    unfold IndexRange.overflows uadd at hbo
    unfold MODULUS at *
    simp only [decide_eq_false_iff_not, not_lt] at hbo
    omega
  have hu : a.mergeWith b = ⟨min a.location b.location,
      max (a.location + a.size) (b.location + b.size) - min a.location b.location⟩ := by
    unfold IndexRange.mergeWith
    rw [if_pos hm]
    unfold IndexRange.unionWith IndexRange.getMax
    rw [uadd_eq ha2, uadd_eq hb2]
    dsimp only
    unfold usub MODULUS at *
    simp only [IndexRange.mk.injEq, true_and]
    omega
  have hno : (min a.location b.location) +
      (max (a.location + a.size) (b.location + b.size) - min a.location b.location) <
      MODULUS := by omega
  have htouch : (a.location ≤ b.location + b.size ∧ b.location ≤ a.location + a.size) := by
    unfold IndexRange.intersects IndexRange.intersectionWith IndexRange.isAdjacentTo at hm
    simp only [uadd_eq ha2, uadd_eq hb2, Bool.or_eq_true, decide_eq_true_eq] at hm
    rcases hm with hm | hm
    · split_ifs at hm with h1 h2
      · omega
      · omega
      · exact absurd rfl hm
    · omega
  rw [hu]
  refine ⟨?_, ?_⟩
  · unfold IndexRange.overflows
    rw [uadd_eq hno]
    simp only [decide_eq_false_iff_not, not_lt]
    omega
  · rw [contains_iff_of_no_overflow hno hp, contains_iff_of_no_overflow ha2 hp,
      contains_iff_of_no_overflow hb2 hp]
    simp only
    omega

theorem mergeWith_covers_union_witness :
    (IndexRange.mk 100 10).WF ∧ (IndexRange.mk 0 101).WF ∧
    (IndexRange.mk 100 10).overflows = false ∧ (IndexRange.mk 0 101).overflows = false ∧
    ((IndexRange.mk 100 10).intersects ⟨0, 101⟩ ||
      (IndexRange.mk 100 10).isAdjacentTo ⟨0, 101⟩) = true ∧
    105 < MODULUS ∧
    ((IndexRange.mk 100 10).mergeWith ⟨0, 101⟩).overflows = false ∧
      (((IndexRange.mk 100 10).mergeWith ⟨0, 101⟩).contains 105 = true ↔
        (IndexRange.mk 100 10).contains 105 = true ∨ (IndexRange.mk 0 101).contains 105 = true) :=
  ⟨by decide, by decide, by decide, by decide, by decide, by decide,
    mergeWith_covers_union ⟨100, 10⟩ ⟨0, 101⟩ (by decide) (by decide) (by decide) (by decide)
      (by decide) 105 (by decide)⟩

/-! ## `fromInterval` and `contains(const IndexRange&)` -/

/-- C19 (counterexample to the claim as stated): `fromInterval(0, MAX)` is the
empty range `{0, 0}`, because the size `MAX - 0 + 1` wraps to `0`; it contains no
index although `0 <= 0 <= MAX`. -/
theorem fromInterval_full_domain_empty :
    IndexRange.fromInterval 0 IndexRange.MAX = ⟨0, 0⟩ ∧
    (IndexRange.fromInterval 0 IndexRange.MAX).empty = true ∧
    (IndexRange.fromInterval 0 IndexRange.MAX).contains 0 = false ∧
    min 0 IndexRange.MAX ≤ 0 ∧ 0 ≤ max 0 IndexRange.MAX := by
  decide

/-- C19 (as amended): for all `lower` and `upper` (in either order),
`fromInterval(lower, upper) == fromInterval(upper, lower)`; and unless the two are
`0` and `MAX` (the whole domain, whose size `2^64` the type cannot hold), the range
`r = fromInterval(lower, upper)` is non-empty and, for every index `p`,
`r.contains(p)` if and only if `min(lower, upper) <= p <= max(lower, upper)`. -/
theorem fromInterval_inclusive (lower upper : Nat) (hl : lower < MODULUS)
    (hu : upper < MODULUS) :
    IndexRange.fromInterval lower upper = IndexRange.fromInterval upper lower ∧
      (¬ (min lower upper = 0 ∧ max lower upper = IndexRange.MAX) →
        (IndexRange.fromInterval lower upper).empty = false ∧
        ∀ p, p < MODULUS →
          ((IndexRange.fromInterval lower upper).contains p = true ↔
            min lower upper ≤ p ∧ p ≤ max lower upper)) := by
  constructor
  · unfold IndexRange.fromInterval
    split_ifs with h1 h2 h2
    · omega
    · rfl
    · rfl
    · have : lower = upper := by omega
      rw [this]
  · intro hne
    unfold IndexRange.fromInterval IndexRange.empty
    constructor
    · unfold uadd usub IndexRange.MAX MODULUS at *
      split_ifs <;> simp only [decide_eq_false_iff_not] <;> omega
    · intro p hp
      unfold IndexRange.contains
      unfold uadd usub IndexRange.MAX MODULUS at *
      split_ifs <;>
        simp only [ge_iff_le, Bool.and_eq_true, decide_eq_true_eq] <;> omega

theorem fromInterval_inclusive_witness :
    7 < MODULUS ∧ IndexRange.MAX < MODULUS ∧
    IndexRange.fromInterval 7 IndexRange.MAX = IndexRange.fromInterval IndexRange.MAX 7 ∧
      (¬ (min 7 IndexRange.MAX = 0 ∧ max 7 IndexRange.MAX = IndexRange.MAX) →
        (IndexRange.fromInterval 7 IndexRange.MAX).empty = false ∧
        ∀ p, p < MODULUS →
          ((IndexRange.fromInterval 7 IndexRange.MAX).contains p = true ↔
            min 7 IndexRange.MAX ≤ p ∧ p ≤ max 7 IndexRange.MAX)) :=
  ⟨by decide, by decide, fromInterval_inclusive 7 IndexRange.MAX (by decide) (by decide)⟩

/-- C20 (the code at the failing input): the empty range `{5, 0}` is reported as
contained in `{0, 100}`: `contains` tests the location `5` and the wrapped
inclusive end `5 + 0 - 1 = 4`, and both lie in `{0, 100}`. -/
theorem containsRange_empty_inside :
    (IndexRange.mk 5 0).size = 0 ∧
    (IndexRange.mk 0 100).containsRange ⟨5, 0⟩ = true ∧
    (IndexRange.mk 0 IndexRange.MAX).containsRange ⟨0, 0⟩ = false := by
  decide

/-! ## Containment and intersection of ranges -/

theorem exact_of_not_overflows {a : IndexRange} (ha : a.WF) (hao : a.overflows = false) :
    a.location + a.size < MODULUS := by
  unfold IndexRange.WF at ha
  unfold IndexRange.overflows uadd at hao
  unfold MODULUS at *
  simp only [decide_eq_false_iff_not, not_lt] at hao
  omega

/-- C21: for every non-overflowing range `r` and every non-empty, non-overflowing
range `o`, `r.contains(o)` is true if and only if `r.getMin() <= o.getMin()` and
`o.getMax() <= r.getMax()`; equivalently, if and only if every index contained in
`o` is contained in `r`. -/
theorem containsRange_iff (r o : IndexRange) (hr : r.WF) (ho : o.WF)
    (hro : r.overflows = false) (hone : o.empty = false) (hoo : o.overflows = false) :
    (r.containsRange o = true ↔ r.getMin ≤ o.getMin ∧ o.getMax ≤ r.getMax) ∧
      (r.containsRange o = true ↔
        ∀ p, p < MODULUS → o.contains p = true → r.contains p = true) := by
  have hr2 := exact_of_not_overflows hr hro
  have hov : o.Valid := (IndexRange.valid_iff ho).2 ⟨hone, hoo⟩
  have ho1 := hov.1
  have ho2 := hov.2
  have hlast : usub (uadd o.location o.size) 1 = o.location + o.size - 1 := by
    rw [uadd_eq ho2, usub_eq (by omega) ho2]
  have hlast_lt : o.location + o.size - 1 < MODULUS := by omega
  have hkey : r.containsRange o = true ↔
      r.location ≤ o.location ∧ o.location + o.size ≤ r.location + r.size := by
    unfold IndexRange.containsRange
    rw [hlast, Bool.and_eq_true, contains_iff_of_no_overflow hr2 ho.1,
      contains_iff_of_no_overflow hr2 hlast_lt]
    omega
  refine ⟨?_, ?_⟩
  · rw [hkey, hov.getMax]
    unfold IndexRange.getMin IndexRange.getMax
    rw [uadd_eq hr2]
  · rw [hkey]
    constructor
    · intro h p hp hc
      rw [hov.contains_iff hp] at hc
      rw [contains_iff_of_no_overflow hr2 hp]
      omega
    · intro h
      have h1 := h o.location ho.1 ((hov.contains_iff ho.1).2 ⟨Nat.le_refl _, by omega⟩)
      have h2 := h (o.location + o.size - 1) hlast_lt
        ((hov.contains_iff hlast_lt).2 ⟨by omega, by omega⟩)
      rw [contains_iff_of_no_overflow hr2 ho.1] at h1
      rw [contains_iff_of_no_overflow hr2 hlast_lt] at h2
      omega

theorem containsRange_iff_witness :
    (IndexRange.mk 0 100).WF ∧ (IndexRange.mk 0 99).WF ∧
    (IndexRange.mk 0 100).overflows = false ∧ (IndexRange.mk 0 99).empty = false ∧
    (IndexRange.mk 0 99).overflows = false ∧
    ((IndexRange.mk 0 100).containsRange ⟨0, 99⟩ = true ↔
      (IndexRange.mk 0 100).getMin ≤ (IndexRange.mk 0 99).getMin ∧
        (IndexRange.mk 0 99).getMax ≤ (IndexRange.mk 0 100).getMax) ∧
    ((IndexRange.mk 0 100).containsRange ⟨0, 99⟩ = true ↔
      ∀ p, p < MODULUS → (IndexRange.mk 0 99).contains p = true →
        (IndexRange.mk 0 100).contains p = true) :=
  ⟨by decide, by decide, by decide, by decide, by decide,
    containsRange_iff ⟨0, 100⟩ ⟨0, 99⟩ (by decide) (by decide) (by decide) (by decide)
      (by decide)⟩

theorem intersectionWith_exact {a b : IndexRange} (ha2 : a.location + a.size < MODULUS)
    (hb2 : b.location + b.size < MODULUS) :
    a.intersectionWith b =
      if b.location ≤ a.location ∧ a.location < b.location + b.size then
        ⟨a.location, min (a.location + a.size) (b.location + b.size) - a.location⟩
      else if a.location ≤ b.location ∧ b.location < a.location + a.size then
        ⟨b.location, min (a.location + a.size) (b.location + b.size) - b.location⟩
      else ⟨0, 0⟩ := by
  simp only [IndexRange.intersectionWith, uadd_eq ha2, uadd_eq hb2]
  unfold usub MODULUS at *
  split_ifs <;> simp only [IndexRange.mk.injEq, true_and, and_true] <;> omega

/-- C22: for all non-overflowing ranges `a` and `b` and every index `p`,
`a.intersectionWith(b).contains(p)` if and only if `a.contains(p)` and
`b.contains(p)`; and whenever the result is non-empty it equals
`{max(a.location, b.location), min(a.getMax(), b.getMax()) - max(a.location, b.location)}`. -/
theorem intersectionWith_covers (a b : IndexRange) (ha : a.WF) (hb : b.WF)
    (hao : a.overflows = false) (hbo : b.overflows = false) (p : Nat) (hp : p < MODULUS) :
    ((a.intersectionWith b).contains p = true ↔ a.contains p = true ∧ b.contains p = true) ∧
      ((a.intersectionWith b).empty = false →
        a.intersectionWith b =
          ⟨max a.location b.location, min a.getMax b.getMax - max a.location b.location⟩) := by
  have ha2 := exact_of_not_overflows ha hao
  have hb2 := exact_of_not_overflows hb hbo
  have hex := intersectionWith_exact ha2 hb2
  unfold IndexRange.getMax
  rw [uadd_eq ha2, uadd_eq hb2,
    contains_iff_of_no_overflow ha2 hp, contains_iff_of_no_overflow hb2 hp]
  unfold IndexRange.empty
  split_ifs at hex with h1 h2
  · rw [hex]
    refine ⟨?_, fun hne => ?_⟩
    · rw [contains_iff_of_no_overflow (by simp only; omega) hp]
      simp only
      omega
    · simp only [decide_eq_false_iff_not] at hne
      simp only [IndexRange.mk.injEq]
      omega
  · rw [hex]
    refine ⟨?_, fun hne => ?_⟩
    · rw [contains_iff_of_no_overflow (by simp only; omega) hp]
      simp only
      omega
    · simp only [decide_eq_false_iff_not] at hne
      simp only [IndexRange.mk.injEq]
      omega
  · rw [hex]
    refine ⟨?_, fun hne => ?_⟩
    · rw [contains_iff_of_no_overflow (by simp only; unfold MODULUS; omega) hp]
      simp only
      omega
    · simp only [decide_eq_false_iff_not] at hne
      exact absurd trivial hne

theorem intersectionWith_covers_witness :
    (IndexRange.mk 100 10).WF ∧ (IndexRange.mk 0 101).WF ∧
    (IndexRange.mk 100 10).overflows = false ∧ (IndexRange.mk 0 101).overflows = false ∧
    100 < MODULUS ∧
    ((((IndexRange.mk 100 10).intersectionWith ⟨0, 101⟩).contains 100 = true ↔
        (IndexRange.mk 100 10).contains 100 = true ∧ (IndexRange.mk 0 101).contains 100 = true) ∧
      (((IndexRange.mk 100 10).intersectionWith ⟨0, 101⟩).empty = false →
        (IndexRange.mk 100 10).intersectionWith ⟨0, 101⟩ =
          ⟨max (IndexRange.mk 100 10).location (IndexRange.mk 0 101).location,
            min (IndexRange.mk 100 10).getMax (IndexRange.mk 0 101).getMax -
              max (IndexRange.mk 100 10).location (IndexRange.mk 0 101).location⟩)) :=
  ⟨by decide, by decide, by decide, by decide, by decide,
    intersectionWith_covers ⟨100, 10⟩ ⟨0, 101⟩ (by decide) (by decide) (by decide) (by decide)
      100 (by decide)⟩

/-- C23 (counterexample to the claim as stated): the empty range `{5, 0}` does
not intersect `{2, 10}`, yet `intersectionWith` returns `{5, 0}`, which is not the
default range `{0, 0}`. -/
theorem intersectionWith_not_default :
    (IndexRange.mk 5 0).intersects ⟨2, 10⟩ = false ∧
    (IndexRange.mk 5 0).intersectionWith ⟨2, 10⟩ = ⟨5, 0⟩ ∧
    (IndexRange.mk 5 0).intersectionWith ⟨2, 10⟩ ≠ ⟨0, 0⟩ := by
  decide

/-- C23 (as amended): for all ranges `a` and `b` that do not intersect
(`a.intersects(b)` is false), `a.intersectionWith(b)` has size `0`; and it equals the
default empty range `{0,0}` whenever `a` and `b` are both non-empty. -/
theorem intersectionWith_of_not_intersects (a b : IndexRange) (ha : a.WF) (hb : b.WF)
    (h : a.intersects b = false) :
    (a.intersectionWith b).size = 0 ∧
      (a.empty = false → b.empty = false → a.intersectionWith b = ⟨0, 0⟩) := by
  have hsz : (a.intersectionWith b).size = 0 := by
    unfold IndexRange.intersects at h
    simpa using h
  refine ⟨hsz, fun hae hbe => ?_⟩
  unfold IndexRange.empty at hae hbe
  unfold IndexRange.WF at ha hb
  unfold IndexRange.intersectionWith at hsz ⊢
  dsimp only at hsz ⊢
  unfold uadd usub MODULUS at *
  simp only [decide_eq_false_iff_not] at hae hbe
  split_ifs at hsz ⊢ with h1 h2
  · simp only at hsz
    omega
  · simp only at hsz
    omega
  · rfl

theorem intersectionWith_of_not_intersects_witness :
    (IndexRange.mk 1 IndexRange.MAX).WF ∧ (IndexRange.mk 999 IndexRange.MAX).WF ∧
    (IndexRange.mk 1 IndexRange.MAX).intersects ⟨999, IndexRange.MAX⟩ = false ∧
    ((IndexRange.mk 1 IndexRange.MAX).intersectionWith ⟨999, IndexRange.MAX⟩).size = 0 ∧
      ((IndexRange.mk 1 IndexRange.MAX).empty = false →
        (IndexRange.mk 999 IndexRange.MAX).empty = false →
        (IndexRange.mk 1 IndexRange.MAX).intersectionWith ⟨999, IndexRange.MAX⟩ = ⟨0, 0⟩) :=
  ⟨by decide, by decide, by decide,
    intersectionWith_of_not_intersects ⟨1, IndexRange.MAX⟩ ⟨999, IndexRange.MAX⟩ (by decide)
      (by decide) (by decide)⟩

/-- C26: `intersectionWith` is commutative for all ranges, overflowing ones
included: `a.intersectionWith(b) == b.intersectionWith(a)`, same location and same
size, whichever of the two branches is taken. -/
theorem intersectionWith_comm (a b : IndexRange) :
    a.intersectionWith b = b.intersectionWith a ∧
      (a.intersectionWith b).eq (b.intersectionWith a) = true := by
  have h : a.intersectionWith b = b.intersectionWith a := by
    unfold IndexRange.intersectionWith
    dsimp only
    rw [Nat.min_comm (uadd b.location b.size) (uadd a.location a.size)]
    by_cases h1 : b.location ≤ a.location ∧ a.location < uadd b.location b.size
    · by_cases h2 : a.location ≤ b.location ∧ b.location < uadd a.location a.size
      · have hab : a.location = b.location := Nat.le_antisymm h2.1 h1.1
        rw [if_pos h1, if_pos h2, hab]
      · rw [if_pos h1, if_neg h2, if_pos h1]
    · by_cases h2 : a.location ≤ b.location ∧ b.location < uadd a.location a.size
      · rw [if_neg h1, if_pos h2, if_pos h2]
      · rw [if_neg h1, if_neg h2, if_neg h2, if_neg h1]
  exact ⟨h, (eq_iff _ _).2 h⟩

/-! ## `unionWith`, the setters and adjacency -/

/-- C24: for all non-overflowing ranges `a` and `b`, `u = a.unionWith(b)` is the
bounding range: `u.getMin() == min(a.getMin(), b.getMin())`,
`u.getMax() == max(a.getMax(), b.getMax())`, `u` does not overflow, and `u` contains
every index contained in `a` or in `b`; and `a.unionWith(b) == b.unionWith(a)`. -/
theorem unionWith_bounding (a b : IndexRange) (ha : a.WF) (hb : b.WF)
    (hao : a.overflows = false) (hbo : b.overflows = false) :
    (a.unionWith b).getMin = min a.getMin b.getMin ∧
      (a.unionWith b).getMax = max a.getMax b.getMax ∧
      (a.unionWith b).overflows = false ∧
      (∀ p, p < MODULUS → (a.contains p = true ∨ b.contains p = true) →
        (a.unionWith b).contains p = true) ∧
      a.unionWith b = b.unionWith a := by
  have ha2 := exact_of_not_overflows ha hao
  have hb2 := exact_of_not_overflows hb hbo
  have hu : ∀ x y : IndexRange, x.location + x.size < MODULUS →
      y.location + y.size < MODULUS →
      x.unionWith y = ⟨min x.location y.location,
        max (x.location + x.size) (y.location + y.size) - min x.location y.location⟩ := by
    intro x y hx hy
    unfold IndexRange.unionWith IndexRange.getMax
    rw [uadd_eq hx, uadd_eq hy]
    dsimp only
    unfold usub MODULUS at *
    simp only [IndexRange.mk.injEq, true_and]
    omega
  have hno : min a.location b.location +
      (max (a.location + a.size) (b.location + b.size) - min a.location b.location) <
      MODULUS := by omega
  rw [hu a b ha2 hb2, hu b a hb2 ha2]
  unfold IndexRange.getMin IndexRange.getMax IndexRange.overflows
  rw [uadd_eq ha2, uadd_eq hb2, uadd_eq hno]
  refine ⟨rfl, by omega, ?_, ?_, ?_⟩
  · simp only [decide_eq_false_iff_not, not_lt]
    omega
  · intro p hp hc
    rw [contains_iff_of_no_overflow ha2 hp, contains_iff_of_no_overflow hb2 hp] at hc
    rw [contains_iff_of_no_overflow hno hp]
    simp only
    omega
  · rw [Nat.min_comm b.location a.location,
      Nat.max_comm (b.location + b.size) (a.location + a.size)]

theorem unionWith_bounding_witness :
    (IndexRange.mk 100 100).WF ∧ (IndexRange.mk 0 50).WF ∧
    (IndexRange.mk 100 100).overflows = false ∧ (IndexRange.mk 0 50).overflows = false ∧
    ((IndexRange.mk 100 100).unionWith ⟨0, 50⟩).getMin =
        min (IndexRange.mk 100 100).getMin (IndexRange.mk 0 50).getMin ∧
      ((IndexRange.mk 100 100).unionWith ⟨0, 50⟩).getMax =
        max (IndexRange.mk 100 100).getMax (IndexRange.mk 0 50).getMax ∧
      ((IndexRange.mk 100 100).unionWith ⟨0, 50⟩).overflows = false ∧
      (∀ p, p < MODULUS →
        ((IndexRange.mk 100 100).contains p = true ∨ (IndexRange.mk 0 50).contains p = true) →
        ((IndexRange.mk 100 100).unionWith ⟨0, 50⟩).contains p = true) ∧
      (IndexRange.mk 100 100).unionWith ⟨0, 50⟩ = (IndexRange.mk 0 50).unionWith ⟨100, 100⟩ :=
  ⟨by decide, by decide, by decide, by decide,
    unionWith_bounding ⟨100, 100⟩ ⟨0, 50⟩ (by decide) (by decide) (by decide) (by decide)⟩

/-- C25: for every range `r` and every value `v`: after `r.setMin(v)`,
`getMin() == v`, and `getMax()` is unchanged when `v <=` the old `getMax()`, otherwise
`r == {v, 0}`; after `r.setMax(v)`, `getMax() == v`, and `getMin()` is unchanged when
`v >=` the old `getMin()`, otherwise `r == {v, 0}`. -/
theorem setters_frame (r : IndexRange) (v : Nat) (hr : r.WF) (hv : v < MODULUS) :
    (r.setMin v).getMin = v ∧
      (v ≤ r.getMax → (r.setMin v).getMax = r.getMax) ∧
      (¬ v ≤ r.getMax → r.setMin v = ⟨v, 0⟩) ∧
      (r.setMax v).getMax = v ∧
      (v ≥ r.getMin → (r.setMax v).getMin = r.getMin) ∧
      (¬ v ≥ r.getMin → r.setMax v = ⟨v, 0⟩) := by
  unfold IndexRange.WF at hr
  unfold IndexRange.setMin IndexRange.setMax IndexRange.getMin IndexRange.getMax
  dsimp only
  unfold uadd usub MODULUS at *
  refine ⟨?_, ?_, ?_, ?_, ?_, ?_⟩
  · split_ifs <;> rfl
  · intro h
    rw [if_neg (by omega)]
    simp only
    omega
  · intro h
    rw [if_pos (by omega)]
  · split_ifs <;> simp only <;> omega
  · intro h
    rw [if_neg (by omega)]
  · intro h
    rw [if_pos (by omega)]

theorem setters_frame_witness :
    (IndexRange.mk 10 5).WF ∧ 12 < MODULUS ∧
    ((IndexRange.mk 10 5).setMin 12).getMin = 12 ∧
      (12 ≤ (IndexRange.mk 10 5).getMax →
        ((IndexRange.mk 10 5).setMin 12).getMax = (IndexRange.mk 10 5).getMax) ∧
      (¬ 12 ≤ (IndexRange.mk 10 5).getMax → (IndexRange.mk 10 5).setMin 12 = ⟨12, 0⟩) ∧
      ((IndexRange.mk 10 5).setMax 12).getMax = 12 ∧
      (12 ≥ (IndexRange.mk 10 5).getMin →
        ((IndexRange.mk 10 5).setMax 12).getMin = (IndexRange.mk 10 5).getMin) ∧
      (¬ 12 ≥ (IndexRange.mk 10 5).getMin → (IndexRange.mk 10 5).setMax 12 = ⟨12, 0⟩) :=
  ⟨by decide, by decide, setters_frame ⟨10, 5⟩ 12 (by decide) (by decide)⟩

/-- C27: for all non-overflowing ranges `a` and `b`: if `a.isAdjacentTo(b)` then
`a.intersects(b)` is false; adjacency is symmetric,
`a.isAdjacentTo(b) == b.isAdjacentTo(a)`; and
`a.isHighAdjacentTo(b) == b.isLowAdjacentTo(a)`. -/
theorem adjacency_properties (a b : IndexRange) (ha : a.WF) (hb : b.WF)
    (hao : a.overflows = false) (hbo : b.overflows = false) :
    (a.isAdjacentTo b = true → a.intersects b = false) ∧
      a.isAdjacentTo b = b.isAdjacentTo a ∧
      a.isHighAdjacentTo b = b.isLowAdjacentTo a := by
  have ha2 := exact_of_not_overflows ha hao
  have hb2 := exact_of_not_overflows hb hbo
  refine ⟨?_, ?_, ?_⟩
  · intro h
    unfold IndexRange.isAdjacentTo at h
    rw [uadd_eq ha2, uadd_eq hb2] at h
    simp only [Bool.or_eq_true, decide_eq_true_eq] at h
    unfold IndexRange.intersects
    rw [intersectionWith_exact ha2 hb2]
    simp only [ne_eq, decide_eq_false_iff_not, not_not]
    split_ifs <;> simp only <;> omega
  · unfold IndexRange.isAdjacentTo
    rw [Bool.eq_iff_iff]
    simp only [Bool.or_eq_true, decide_eq_true_eq]
    constructor
    · rintro (h | h)
      · exact Or.inr h.symm
      · exact Or.inl h.symm
    · rintro (h | h)
      · exact Or.inr h.symm
      · exact Or.inl h.symm
  · unfold IndexRange.isHighAdjacentTo IndexRange.isLowAdjacentTo
    rw [Bool.eq_iff_iff]
    simp only [decide_eq_true_eq]
    exact eq_comm

theorem adjacency_properties_witness :
    (IndexRange.mk 1 1).WF ∧ (IndexRange.mk 0 1).WF ∧
    (IndexRange.mk 1 1).overflows = false ∧ (IndexRange.mk 0 1).overflows = false ∧
    ((IndexRange.mk 1 1).isAdjacentTo ⟨0, 1⟩ = true →
        (IndexRange.mk 1 1).intersects ⟨0, 1⟩ = false) ∧
      (IndexRange.mk 1 1).isAdjacentTo ⟨0, 1⟩ = (IndexRange.mk 0 1).isAdjacentTo ⟨1, 1⟩ ∧
      (IndexRange.mk 1 1).isHighAdjacentTo ⟨0, 1⟩ = (IndexRange.mk 0 1).isLowAdjacentTo ⟨1, 1⟩ :=
  ⟨by decide, by decide, by decide, by decide,
    adjacency_properties ⟨1, 1⟩ ⟨0, 1⟩ (by decide) (by decide) (by decide) (by decide)⟩

/-! ## Idempotence of the normalisation, and observers before `erase` -/

theorem fromVector_of_valid {N : List IndexRange} (hv : ∀ e ∈ N, e.Valid) :
    IndexRangeList.fromVector N = { _ranges := N, _sorted := false } := by
  rw [IndexRangeList.fromVector_eq]
  have hmap : N.map validate = N := by
    conv_rhs => rw [← List.map_id N]
    exact List.map_congr_left (fun e he => validate_of_valid (hv e he))
  have hfil : N.filter (fun r => !r.empty) = N := by
    rw [List.filter_eq_self]
    intro e he
    simp only [Bool.not_eq_true', ((IndexRange.valid_iff (hv e he).wf).1 (hv e he)).1]
  rw [hmap, hfil]

/-- C28: normalisation is idempotent: for every vector of ranges `xs`,
`IndexRangeList(IndexRangeList(xs).ranges()).ranges() == IndexRangeList(xs).ranges()`;
and on any list `l`, a second `ranges()` right after a first one (which has left the
list as `_sort` made it) returns the same vector. -/
theorem normalisation_idempotent (xs : List IndexRange) (hxs : ∀ x ∈ xs, x.WF)
    (l : IndexRangeList) :
    (IndexRangeList.fromVector (IndexRangeList.fromVector xs).ranges).ranges =
        (IndexRangeList.fromVector xs).ranges ∧
      l._sort.ranges = l.ranges := by
  constructor
  · have hN := (IndexRangeList.inv_sort (IndexRangeList.inv_fromVector hxs)).2.1
    have hN1 : NormalForm (IndexRangeList.fromVector xs).ranges := hN
    have hs := @IndexRangeList._sort_of_normalForm
      { _ranges := (IndexRangeList.fromVector xs).ranges, _sorted := false } hN1
    rw [fromVector_of_valid hN1.1]
    unfold IndexRangeList.ranges at hs ⊢
    rw [hs]
  · unfold IndexRangeList.ranges
    rw [IndexRangeList._sort_of_sorted (IndexRangeList._sort_sorted l)]

theorem normalisation_idempotent_witness :
    (∀ x ∈ [IndexRange.mk 4 7, IndexRange.mk 1 2, IndexRange.mk 3 1], x.WF) ∧
    (IndexRangeList.fromVector (IndexRangeList.fromVector
        [IndexRange.mk 4 7, IndexRange.mk 1 2, IndexRange.mk 3 1]).ranges).ranges =
      (IndexRangeList.fromVector [IndexRange.mk 4 7, IndexRange.mk 1 2, IndexRange.mk 3 1]).ranges ∧
    (IndexRangeList.mk [⟨4, 7⟩, ⟨1, 2⟩, ⟨3, 1⟩] false)._sort.ranges =
      (IndexRangeList.mk [⟨4, 7⟩, ⟨1, 2⟩, ⟨3, 1⟩] false).ranges :=
  ⟨by decide,
    normalisation_idempotent [IndexRange.mk 4 7, IndexRange.mk 1 2, IndexRange.mk 3 1]
      (by decide) (IndexRangeList.mk [⟨4, 7⟩, ⟨1, 2⟩, ⟨3, 1⟩] false)⟩

/-- C29 (the code at the failing input): for the vector `[{0,1}, {5,1}]` and the
window `{1,4}`, `erase` right after the construction is followed by `ranges() ==
[{0,2}]`, while with an observer between the construction and the `erase` it is
followed by `ranges() == [{0,1}, {1,1}]`: `erase` leaves `_sorted` set, so the entries
the erase made adjacent are not merged. -/
theorem observer_before_erase_changes_ranges :
    ((IndexRangeList.fromVector [⟨0, 1⟩, ⟨5, 1⟩]).erase ⟨1, 4⟩).ranges = [⟨0, 2⟩] ∧
    ((IndexRangeList.fromVector [⟨0, 1⟩, ⟨5, 1⟩])._sort.erase ⟨1, 4⟩).ranges =
      [⟨0, 1⟩, ⟨1, 1⟩] ∧
    ((IndexRangeList.fromVector [⟨0, 1⟩, ⟨5, 1⟩]).erase ⟨1, 4⟩).ranges ≠
      ((IndexRangeList.fromVector [⟨0, 1⟩, ⟨5, 1⟩])._sort.erase ⟨1, 4⟩).ranges := by
  decide

/-! ## `insert` followed by `erase` -/

theorem eraseStep_insertImage {w e : IndexRange} (hw : w.Valid) (he : e.Valid)
    (hfit : e.location + e.size + w.size < MODULUS) :
    IndexRangeList.eraseStep w (insertImage w e) = e := by
  have hiv := insertImage_valid he hfit
  have hc := he.contains_iff hw.wf.1
  have hw1 := hw.1
  have hw2 := hw.2
  have he1 := he.1
  have he2 := he.2
  unfold IndexRangeList.eraseStep
  rw [hw.getMax, hiv.getMax]
  unfold IndexRange.getMin
  cases e with
  | mk el es =>
    simp only at hc he1 he2 hfit
    by_cases h1 : (IndexRange.mk el es).contains w.location = true
    · have him : insertImage w ⟨el, es⟩ = ⟨el, es + w.size⟩ := by
        unfold insertImage; rw [if_pos h1]
      rw [hc] at h1
      rw [him]
      simp only
      rw [if_pos (by omega), if_neg (by omega), if_pos (by omega)]
      unfold usub MODULUS at *
      simp only [IndexRange.mk.injEq, true_and]
      omega
    · by_cases h2 : el > w.location
      · have him : insertImage w ⟨el, es⟩ = ⟨el + w.size, es⟩ := by
          unfold insertImage; rw [if_neg h1, if_pos h2]
        rw [him]
        simp only
        rw [if_pos (by omega), if_neg (by omega), if_neg (by omega), if_pos (by omega)]
        unfold usub MODULUS at *
        simp only [IndexRange.mk.injEq, and_true]
        omega
      · have him : insertImage w ⟨el, es⟩ = ⟨el, es⟩ := by
          unfold insertImage; rw [if_neg h1, if_neg h2]
        rw [hc] at h1
        rw [him]
        simp only
        rw [if_neg (by omega)]

theorem eraseLoop_insertImage {w : IndexRange} (hw : w.Valid) (R : List IndexRange)
    (hv : ∀ e ∈ R, e.Valid) (hfit : ∀ e ∈ R, e.location + e.size + w.size < MODULUS) :
    IndexRangeList.eraseLoop w (R.map (insertImage w)) = R := by
  induction R with
  | nil => rfl
  | cons e R ih =>
    have he := hv e (List.mem_cons_self _ _)
    have he1 := he.1
    rw [List.map_cons]
    unfold IndexRangeList.eraseLoop
    simp only [eraseStep_insertImage hw he (hfit e (List.mem_cons_self _ _))]
    rw [if_neg (by omega), ih (fun f hf => hv f (List.mem_cons_of_mem _ hf))
      (fun f hf => hfit f (List.mem_cons_of_mem _ hf))]

theorem insert_state_fit {l : IndexRangeList} (hR : NormalForm l.ranges) {w : IndexRange}
    (hw : w.Valid) (hfit : ∀ e ∈ l.ranges, e.location + e.size + w.size < MODULUS) :
    l.insert w = { _ranges := l.ranges.map (insertImage w), _sorted := false } := by
  have hne : (validate w).empty = false := by
    rw [validate_of_valid hw]
    exact ((IndexRange.valid_iff hw.wf).1 hw).1
  unfold IndexRangeList.insert
  simp only [hne, Bool.false_eq_true, if_false]
  rw [validate_of_valid hw]
  unfold IndexRangeList.ranges at hR hfit ⊢
  rw [insertLoop_fit hw _ hR.1 hfit]

/-- On a list state whose `ranges()` is in normal form, `insert` followed by
`erase` of the same non-empty, non-overflowing range `r`, with
`e.getMax() + r.size <= MAX` (exact arithmetic) for every entry `e`, leaves
`ranges()` as it was. -/
theorem insert_erase_round_trip_of_normalForm (l : IndexRangeList) (hR : NormalForm l.ranges)
    (r : IndexRange) (hr : r.WF) (hne : r.empty = false) (hno : r.overflows = false)
    (hfit : ∀ e ∈ l.ranges, e.getMax + r.size ≤ IndexRange.MAX) :
    ((l.insert r).erase r).ranges = l.ranges := by
  have hw : r.Valid := (IndexRange.valid_iff hr).2 ⟨hne, hno⟩
  have hfit1 : ∀ e ∈ l.ranges, e.location + e.size + r.size < MODULUS := by
    intro e he
    have h := hfit e he
    rw [(hR.1 e he).getMax] at h
    unfold IndexRange.MAX at h
    unfold MODULUS
    omega
  have hne1 : (validate r).empty = false := by rw [validate_of_valid hw]; exact hne
  rw [insert_state_fit hR hw hfit1]
  unfold IndexRangeList.erase
  simp only [hne1, Bool.false_eq_true, if_false]
  rw [validate_of_valid hw, eraseLoop_insertImage hw _ hR.1 hfit1]
  have hs := @IndexRangeList._sort_of_normalForm { _ranges := l.ranges, _sorted := false } hR
  unfold IndexRangeList.ranges at hs ⊢
  rw [hs]

theorem insert_erase_round_trip_of_normalForm_example :
    NormalForm (IndexRangeList.fromVector [IndexRange.mk 1 2, IndexRange.mk 4 8]).ranges ∧
    (IndexRange.mk 5 3).WF ∧ (IndexRange.mk 5 3).empty = false ∧
    (IndexRange.mk 5 3).overflows = false ∧
    (∀ e ∈ (IndexRangeList.fromVector [IndexRange.mk 1 2, IndexRange.mk 4 8]).ranges,
      e.getMax + (IndexRange.mk 5 3).size ≤ IndexRange.MAX) ∧
    (((IndexRangeList.fromVector [IndexRange.mk 1 2, IndexRange.mk 4 8]).insert ⟨5, 3⟩).erase
        ⟨5, 3⟩).ranges =
      (IndexRangeList.fromVector [IndexRange.mk 1 2, IndexRange.mk 4 8]).ranges :=
  ⟨(IndexRangeList.inv_sort (IndexRangeList.inv_fromVector (by decide))).2.1,
    by decide, by decide, by decide, by decide,
    insert_erase_round_trip_of_normalForm
      (IndexRangeList.fromVector [IndexRange.mk 1 2, IndexRange.mk 4 8])
      (IndexRangeList.inv_sort (IndexRangeList.inv_fromVector (by decide))).2.1
      ⟨5, 3⟩ (by decide) (by decide) (by decide) (by decide)⟩

/-! ## The index `MAX` -/

theorem not_contains_max {e : IndexRange} (h : e.location + e.size < MODULUS) :
    e.contains IndexRange.MAX = false := by
  rw [← Bool.not_eq_true, contains_iff_of_no_overflow h (by decide)]
  unfold IndexRange.MAX MODULUS at *
  omega

/-- C31: for every range `r`, `validate(r)` never contains the index `MAX`; and
whenever `r` overflows, `validate(r)` keeps `r.location` and ends exactly at the
domain maximum (`validate(r).getMax() == MAX`), the returned remainder having size
`(r.location + r.size - 2^64) + 1`.  Consequently, after any sequence of `add` calls
(the constructor from a vector included) and observers, no stored entry and no
entry of `ranges()` contains the index `MAX`. -/
theorem validate_excludes_max (r : IndexRange) (hr : r.WF) (xs : List IndexRange)
    (calls : List Call) (hxs : ∀ x ∈ xs, x.WF) (hwf : ∀ c ∈ calls, c.WF)
    (hadd : ∀ c ∈ calls, c.isAddOrObserver = true) :
    (validate r).contains IndexRange.MAX = false ∧
      (r.overflows = true →
        (validate r).location = r.location ∧
        (validate r).getMax = IndexRange.MAX ∧
        r.clearOverflow.1.size = (r.location + r.size - MODULUS) + 1) ∧
      ∃ l, Call.run (IndexRangeList.fromVector xs) calls = some l ∧
        (∀ e ∈ l._ranges, e.contains IndexRange.MAX = false) ∧
        (∀ e ∈ l.ranges, e.contains IndexRange.MAX = false) := by
  refine ⟨not_contains_max (validate_exact hr), ?_, ?_⟩
  · intro ho
    have hov : ¬ r.location + r.size < MODULUS := by
      intro h
      unfold IndexRange.overflows at ho
      rw [uadd_eq h] at ho
      simp only [decide_eq_true_eq] at ho
      omega
    have hv := validate_eq_of_wf hr
    rw [if_neg hov] at hv
    refine ⟨by rw [hv], ?_, ?_⟩
    · rw [hv]
      unfold IndexRange.WF at hr
      unfold IndexRange.getMax uadd IndexRange.MAX MODULUS at *
      simp only
      omega
    · unfold IndexRange.WF at hr
      unfold IndexRange.clearOverflow
      dsimp only
      unfold uadd IndexRange.MAX MODULUS at *
      split_ifs with h
      · simp only
        omega
      · omega
  · obtain ⟨l, h1, h2⟩ :=
      run_add_observer_inv calls _ (IndexRangeList.inv_fromVector hxs) hwf hadd
    refine ⟨l, h1, fun e he => not_contains_max (h2.1 e he).2, fun e he => ?_⟩
    exact not_contains_max ((IndexRangeList.inv_sort h2).2.1.1 e he).2

theorem validate_excludes_max_witness :
    (IndexRange.mk 3 IndexRange.MAX).WF ∧
    (∀ x ∈ [IndexRange.mk 1 IndexRange.MAX, IndexRange.mk 0 1], x.WF) ∧
    (∀ c ∈ [Call.add ⟨IndexRange.MAX, 5⟩, Call.ranges, Call.add ⟨7, IndexRange.MAX⟩], c.WF) ∧
    (∀ c ∈ [Call.add ⟨IndexRange.MAX, 5⟩, Call.ranges, Call.add ⟨7, IndexRange.MAX⟩],
      c.isAddOrObserver = true) ∧
    (validate ⟨3, IndexRange.MAX⟩).contains IndexRange.MAX = false ∧
      ((IndexRange.mk 3 IndexRange.MAX).overflows = true →
        (validate ⟨3, IndexRange.MAX⟩).location = (IndexRange.mk 3 IndexRange.MAX).location ∧
        (validate ⟨3, IndexRange.MAX⟩).getMax = IndexRange.MAX ∧
        (IndexRange.mk 3 IndexRange.MAX).clearOverflow.1.size =
          ((IndexRange.mk 3 IndexRange.MAX).location + (IndexRange.mk 3 IndexRange.MAX).size -
            MODULUS) + 1) ∧
      ∃ l, Call.run
          (IndexRangeList.fromVector [IndexRange.mk 1 IndexRange.MAX, IndexRange.mk 0 1])
          [Call.add ⟨IndexRange.MAX, 5⟩, Call.ranges, Call.add ⟨7, IndexRange.MAX⟩] = some l ∧
        (∀ e ∈ l._ranges, e.contains IndexRange.MAX = false) ∧
        (∀ e ∈ l.ranges, e.contains IndexRange.MAX = false) :=
  ⟨by decide, by decide, by decide, by decide,
    validate_excludes_max ⟨3, IndexRange.MAX⟩ (by decide)
      [IndexRange.mk 1 IndexRange.MAX, IndexRange.mk 0 1]
      [Call.add ⟨IndexRange.MAX, 5⟩, Call.ranges, Call.add ⟨7, IndexRange.MAX⟩]
      (by decide) (by decide) (by decide)⟩

/-! ## `insert` on a list that `erase` has left unmerged -/

end ofx
